import Mathlib

/-!
Verification of the `wkb` crate (georust/wkb): a reader and writer for the
Well-Known Binary geometry interchange format.

The development shallowly embeds the Rust sources:
 - `src/common.rs`     : endianness, dimensions, geometry type codes
 - `src/reader/*.rs`   : the zero-copy parser views (`Wkb`, `Point`,
   `LineString`, `LinearRing`, `Polygon`, `MultiPoint`, `MultiLineString`,
   `MultiPolygon`, `GeometryCollection`, `Coord`)
 - `src/writer/*.rs`   : the WKB serializer

Byte buffers are `List Nat` (each entry a byte value), `u32` and `f64`
values are `Nat` (an `f64` is represented by its 64-bit IEEE-754 bit
pattern, so reading and writing are exact and NaN checks are decidable).
Fallible Rust code returns `Outcome`, which distinguishes `Ok`, a returned
`Err`, and a panic (`unwrap` of an `Err`, or an out-of-bounds slice).

A few crate files are not present in the source snapshot
(`src/error.rs`, `src/reader/util.rs`, `src/writer/coord.rs`,
`src/writer/polygon.rs`, and the external materialize-to-owned-geometry
collaborator); definitions for those are modelled from the spec and marked
as such in their doc comments.
-/

namespace GeoWkb

/-- Decode failure, modelled from the spec: `src/error.rs` is not in the
source snapshot.  The constructors follow the distinct error messages
produced in the sources: a failed `Cursor` read propagated with `?`
(`ioError`), an invalid byte-order marker, a type code out of range
(carrying the offending code, as the message in `common.rs` does), a count
that does not fit the platform size type, and an invalid buffer length
carrying the expected end offset and the actual buffer length (as the
`handle_invalid_buffer_length` messages do). -/
inductive WkbError where
  | ioError : WkbError
  | invalidByteOrder : WkbError
  | typeOutOfRange : Nat → WkbError
  | invalidCount : WkbError
  | invalidBufferLength : Nat → Nat → WkbError
  | fuelExhausted : WkbError
deriving DecidableEq, Repr

/-- Result of running a fallible Rust computation: `ok`, a returned
`WkbResult::Err`, or a panic (an `unwrap()` of an `Err`, or an
out-of-range slice index). -/
inductive Outcome (α : Type) where
  | ok : α → Outcome α
  | error : WkbError → Outcome α
  | panic : Outcome α
deriving DecidableEq, Repr

/-- Map over the success value of an `Outcome`. -/
def Outcome.map {α β : Type} (f : α → β) : Outcome α → Outcome β
  | .ok a => .ok (f a)
  | .error e => .error e
  | .panic => .panic

/-- Byte order of a WKB buffer (`Endianness` in `common.rs`). -/
inductive Endianness where
  | bigEndian : Endianness
  | littleEndian : Endianness
deriving DecidableEq, Repr

/-- The `u8` discriminant of `Endianness` (`IntoPrimitive`). -/
def Endianness.toByte : Endianness → Nat
  | .bigEndian => 0
  | .littleEndian => 1

/-- `Endianness::try_from` on a `u8` (`TryFromPrimitive`): 0 is big-endian,
1 is little-endian, anything else fails. -/
def endiannessOfByte (b : Nat) : Option Endianness :=
  if b = 0 then some .bigEndian
  else if b = 1 then some .littleEndian
  else none

/-- Supported WKB dimensions (`Dimension` in `common.rs`). -/
inductive Dimension where
  | xy : Dimension
  | xyz : Dimension
  | xym : Dimension
  | xyzm : Dimension
deriving DecidableEq, Repr

/-- `Dimension::as_u32_offset`: the ISO WKB magnitude band of a dimension. -/
def Dimension.as_u32_offset : Dimension → Nat
  | .xy => 0
  | .xyz => 1000
  | .xym => 2000
  | .xyzm => 3000

/-- `Dimension::size`: the number of ordinates per coordinate. -/
def Dimension.size : Dimension → Nat
  | .xy => 2
  | .xyz => 3
  | .xym => 3
  | .xyzm => 4

theorem Dimension.size_pos (d : Dimension) : 2 ≤ d.size := by
  cases d <;> simp [Dimension.size]

/-! ### Raw byte reading and writing

All cursor reads in the sources go through `byteorder`'s extension methods
on `Cursor<&[u8]>`; a read past the end of the buffer returns an
`UnexpectedEof` error.  We model a read at position `pos` as an assembly of
the first bytes of `buf.drop pos`, returning `none` when too few bytes
remain. -/

/-- Assemble a little-endian `u32` from the first four bytes of a list. -/
def assemble32LE : List Nat → Option Nat
  | b0 :: b1 :: b2 :: b3 :: _ => some (b0 + 256 * (b1 + 256 * (b2 + 256 * b3)))
  | _ => none

/-- Assemble a big-endian `u32` from the first four bytes of a list. -/
def assemble32BE : List Nat → Option Nat
  | b0 :: b1 :: b2 :: b3 :: _ => some (b3 + 256 * (b2 + 256 * (b1 + 256 * b0)))
  | _ => none

/-- Assemble a little-endian 64-bit value from the first eight bytes. -/
def assemble64LE : List Nat → Option Nat
  | b0 :: b1 :: b2 :: b3 :: b4 :: b5 :: b6 :: b7 :: _ =>
      some (b0 + 256 * (b1 + 256 * (b2 + 256 * (b3 + 256 * (b4 + 256 *
        (b5 + 256 * (b6 + 256 * b7)))))))
  | _ => none

/-- Assemble a big-endian 64-bit value from the first eight bytes. -/
def assemble64BE : List Nat → Option Nat
  | b0 :: b1 :: b2 :: b3 :: b4 :: b5 :: b6 :: b7 :: _ =>
      some (b7 + 256 * (b6 + 256 * (b5 + 256 * (b4 + 256 * (b3 + 256 *
        (b2 + 256 * (b1 + 256 * b0)))))))
  | _ => none

/-- Read one byte at `pos` (`Cursor::read_u8`). -/
def readU8 (buf : List Nat) (pos : Nat) : Option Nat :=
  (buf.drop pos).head?

/-- Read a `u32` at `pos` in the given byte order (`read_u32` of the
`ReadBytesExt` helper). -/
def readU32 (bo : Endianness) (buf : List Nat) (pos : Nat) : Option Nat :=
  match bo with
  | .littleEndian => assemble32LE (buf.drop pos)
  | .bigEndian => assemble32BE (buf.drop pos)

/-- Read the 64-bit pattern of an `f64` at `pos` in the given byte order
(`read_f64` of the `ReadBytesExt` helper). -/
def readF64 (bo : Endianness) (buf : List Nat) (pos : Nat) : Option Nat :=
  match bo with
  | .littleEndian => assemble64LE (buf.drop pos)
  | .bigEndian => assemble64BE (buf.drop pos)

/-- Little-endian bytes of a `u32`. -/
def u32BytesLE (n : Nat) : List Nat :=
  [n % 256, n / 256 % 256, n / 65536 % 256, n / 16777216 % 256]

/-- Serialize a `u32` in the given byte order (`write_u32`). -/
def u32Bytes (bo : Endianness) (n : Nat) : List Nat :=
  match bo with
  | .littleEndian => u32BytesLE n
  | .bigEndian => (u32BytesLE n).reverse

/-- Little-endian bytes of a 64-bit pattern. -/
def f64BytesLE (n : Nat) : List Nat :=
  [n % 256, n / 256 % 256, n / 65536 % 256, n / 16777216 % 256,
   n / 4294967296 % 256, n / 1099511627776 % 256,
   n / 281474976710656 % 256, n / 72057594037927936 % 256]

/-- Serialize the 64-bit pattern of an `f64` in the given byte order
(`write_f64`). -/
def f64Bytes (bo : Endianness) (n : Nat) : List Nat :=
  match bo with
  | .littleEndian => f64BytesLE n
  | .bigEndian => (f64BytesLE n).reverse

/-- An IEEE-754 double is NaN iff its exponent bits are all ones and its
mantissa is nonzero (`f64::is_nan` on the bit pattern). -/
def isNanBits (n : Nat) : Bool :=
  decide (n / 4503599627370496 % 2048 = 2047) && decide (n % 4503599627370496 ≠ 0)

/-- The bit pattern of `f64::NAN` in Rust (a positive quiet NaN). -/
def nanBits : Nat := 9221120237041090560

/-! ### Geometry type codes (`common.rs`) -/

/-- The various WKB types supported by the crate (`WkbType`). -/
inductive WkbType where
  | point : Dimension → WkbType
  | lineString : Dimension → WkbType
  | polygon : Dimension → WkbType
  | multiPoint : Dimension → WkbType
  | multiLineString : Dimension → WkbType
  | multiPolygon : Dimension → WkbType
  | geometryCollection : Dimension → WkbType
deriving DecidableEq, Repr

/-- `WkbType::as_geometry_code`: the `u32` type code written for a type. -/
def WkbType.code : WkbType → Nat
  | .point d => 1 + d.as_u32_offset
  | .lineString d => 2 + d.as_u32_offset
  | .polygon d => 3 + d.as_u32_offset
  | .multiPoint d => 4 + d.as_u32_offset
  | .multiLineString d => 5 + d.as_u32_offset
  | .multiPolygon d => 6 + d.as_u32_offset
  | .geometryCollection d => 7 + d.as_u32_offset

/-- `WkbGeometryCode::has_srid`: the EWKB SRID bit flag `0x20000000`. -/
def codeHasSrid (code : Nat) : Bool :=
  code.testBit 29

/-- `WkbGeometryCode::get_type`: decode a `u32` type code into a
`WkbType`.  The ISO magnitude band (`code / 1000`) selects a provisional
dimension, the EWKB `Z`/`M` bit flags (`0x80000000` / `0x40000000`)
override it when set, and the low three bits select the geometry kind,
any value outside `1..=7` being an error. -/
def getType (code : Nat) : Outcome WkbType :=
  let band := code / 1000
  let dim0 : Dimension :=
    if band = 1 then .xyz
    else if band = 2 then .xym
    else if band = 3 then .xyzm
    else .xy
  let isZ := code.testBit 31
  let isM := code.testBit 30
  let dim : Dimension :=
    if isZ && isM then .xyzm
    else if isZ && !isM then .xyz
    else if !isZ && isM then .xym
    else dim0
  match code % 8 with
  | 1 => .ok (.point dim)
  | 2 => .ok (.lineString dim)
  | 3 => .ok (.polygon dim)
  | 4 => .ok (.multiPoint dim)
  | 5 => .ok (.multiLineString dim)
  | 6 => .ok (.multiPolygon dim)
  | 7 => .ok (.geometryCollection dim)
  | _ => .error (.typeOutOfRange code)

/-- `WkbType::from_buffer`: read the byte-order marker and the type code
from the head of a buffer.  Both reads are `unwrap`ped in the source, so a
buffer that holds the marker but not the full four-byte code panics. -/
def WkbType.from_buffer (buf : List Nat) : Outcome WkbType :=
  match readU8 buf 0 with
  | none => .panic
  | some b =>
    if b = 0 then
      match readU32 .bigEndian buf 1 with
      | none => .panic
      | some code => getType code
    else if b = 1 then
      match readU32 .littleEndian buf 1 with
      | none => .panic
      | some code => getType code
    else .error .invalidByteOrder

/-! ### Reader views (`src/reader/*.rs`)

Each view borrows the byte buffer plus precomputed scalar metadata.  In
the embedding a view holds the buffer (`List Nat`) together with the same
scalars the Rust structs hold.  Slices `&buf[a..b]` of the original buffer
are represented by the full buffer plus the absolute offset `a` (the reads
performed through either representation touch the same bytes). -/

/-- A coordinate in a WKB buffer (`reader/coord.rs`): a run of
`dim.size` doubles starting at `offset`, in byte order `byte_order`. -/
structure Coord where
  buf : List Nat
  byte_order : Endianness
  offset : Nat
  dim : Dimension
deriving Repr

/-- `Coord::get_nth_unchecked` (also `nth_or_panic`): read the `n`-th
ordinate at byte offset `8 * n` into the coordinate.  The `read_f64` is
`unwrap`ped in the source, so an out-of-bounds read panics. -/
def Coord.get_nth_unchecked (c : Coord) (n : Nat) : Outcome Nat :=
  match readF64 c.byte_order c.buf (c.offset + 8 * n) with
  | some bits => .ok bits
  | none => .panic

/-- `Coord::get_x`: read the first ordinate. -/
def Coord.x (c : Coord) : Outcome Nat :=
  match readF64 c.byte_order c.buf c.offset with
  | some bits => .ok bits
  | none => .panic

/-- `Coord::get_y`: read the second ordinate (at byte offset 8). -/
def Coord.y (c : Coord) : Outcome Nat :=
  match readF64 c.byte_order c.buf (c.offset + 8) with
  | some bits => .ok bits
  | none => .panic

/-- Probe the EWKB SRID flag of the geometry whose header starts at
`offset`: read the four-byte type code after the one-byte order marker and
test bit 29.  Modelled from the spec: `reader/util.rs` (`has_srid`) is not
in the source snapshot; per the spec the SRID presence "is resolved before
the point-count field is located, by probing the parent geometry's header
SRID flag". -/
def hasSrid (buf : List Nat) (bo : Endianness) (offset : Nat) : Outcome Bool :=
  match readU32 bo buf (offset + 1) with
  | none => .error .ioError
  | some code => .ok (codeHasSrid code)

/-- A WKB Point view (`reader/point.rs`): the coordinate view, the length
of the retained slice `buf[0..expected_end]`, the dimension, and the
precomputed emptiness flag. -/
structure Point where
  coord : Coord
  size : Nat
  dim : Dimension
  is_empty : Bool
deriving Repr

/-- `Point::try_new`.  The source fixes the header at the start of the
buffer; the callers in `reader/geometry.rs` and `reader/multipoint.rs`
additionally pass a start offset (`Point::try_new(buf, byte_order, 0,
dim)` and `Point::new(buf, byte_order, point_offset, dim)`), so the
embedding takes the start offset `base`, with `base = 0` matching
`reader/point.rs` literally.  After the 5-byte header (plus 4 SRID bytes
when flagged) come `dim.size` doubles; the buffer must reach their end.
The point is empty iff every ordinate is NaN. -/
def Point.try_new (buf : List Nat) (bo : Endianness) (base : Nat)
    (dim : Dimension) : Outcome Point :=
  match hasSrid buf bo base with
  | .error e => .error e
  | .panic => .panic
  | .ok srid =>
    let off := base + 5 + (if srid then 4 else 0)
    let expectedEnd := off + dim.size * 8
    if buf.length < expectedEnd then
      .error (.invalidBufferLength expectedEnd buf.length)
    else
      let c : Coord := ⟨buf, bo, off, dim⟩
      let empt := (List.range dim.size).all fun k =>
        match c.get_nth_unchecked k with
        | .ok bits => isNanBits bits
        | _ => false
          -- unreachable: the length check puts every ordinate in bounds
      .ok { coord := c, size := expectedEnd, dim := dim, is_empty := empt }

/-- `Point::new`: `try_new(..).unwrap()`. -/
def Point.new (buf : List Nat) (bo : Endianness) (base : Nat)
    (dim : Dimension) : Outcome Point :=
  match Point.try_new buf bo base dim with
  | .ok p => .ok p
  | _ => .panic

/-- `PointTrait::coord`: `None` iff the point is empty. -/
def Point.coordOpt (p : Point) : Option Coord :=
  if p.is_empty then none else some p.coord

/-- A WKB LinearRing view (`reader/linearring.rs`): a point count at
`offset` followed by that many coordinates. -/
structure LinearRing where
  buf : List Nat
  byte_order : Endianness
  offset : Nat
  num_points : Nat
  dim : Dimension
deriving Repr

/-- `LinearRing::size`: the count field plus the coordinate data. -/
def LinearRing.size (r : LinearRing) : Nat :=
  4 + r.dim.size * 8 * r.num_points

/-- `LinearRing::coord_offset`. -/
def LinearRing.coord_offset (r : LinearRing) (i : Nat) : Nat :=
  r.offset + 4 + r.dim.size * 8 * i

/-- `LinearRing::try_new`: read the `u32` point count at `offset` (the
`u32` always fits the 64-bit platform size type, so the `try_into` in the
source cannot fail) and reject the ring when its computed end exceeds the
buffer length. -/
def LinearRing.try_new (buf : List Nat) (bo : Endianness) (offset : Nat)
    (dim : Dimension) : Outcome LinearRing :=
  match readU32 bo buf offset with
  | none => .error .ioError
  | some np =>
    let r : LinearRing := ⟨buf, bo, offset, np, dim⟩
    if offset + r.size > buf.length then
      .error (.invalidBufferLength (offset + r.size) buf.length)
    else .ok r

/-- `LineStringTrait::coord_unchecked` for `LinearRing`. -/
def LinearRing.coord_unchecked (r : LinearRing) (i : Nat) : Coord :=
  ⟨r.buf, r.byte_order, r.coord_offset i, r.dim⟩

/-- A WKB LineString view (`reader/linestring.rs`). -/
structure LineString where
  buf : List Nat
  byte_order : Endianness
  num_points : Nat
  offset : Nat
  dim : Dimension
  has_srid : Bool
deriving Repr

/-- `LineString::size`: full header (plus SRID when present), count field,
and coordinate data. -/
def LineString.size (l : LineString) : Nat :=
  (1 + 4 + 4 + (if l.has_srid then 4 else 0)) + l.dim.size * 8 * l.num_points

/-- `LineString::coord_offset` (the stored `offset` already includes the
SRID skip). -/
def LineString.coord_offset (l : LineString) (i : Nat) : Nat :=
  l.offset + 1 + 4 + 4 + l.dim.size * 8 * i

/-- `LineString::try_new`: probe the SRID flag of the header at `offset`,
skip it when present, read the `u32` point count after the 5-byte header,
and reject the line string when its computed absolute end exceeds the
buffer length. -/
def LineString.try_new (buf : List Nat) (bo : Endianness) (offset : Nat)
    (dim : Dimension) : Outcome LineString :=
  match hasSrid buf bo offset with
  | .error e => .error e
  | .panic => .panic
  | .ok srid =>
    let off := offset + (if srid then 4 else 0)
    match readU32 bo buf (5 + off) with
    | none => .error .ioError
    | some np =>
      let l : LineString := ⟨buf, bo, np, off, dim, srid⟩
      if l.coord_offset np > buf.length then
        .error (.invalidBufferLength (l.coord_offset np) buf.length)
      else .ok l

/-- `LineStringTrait::coord_unchecked` for `LineString`. -/
def LineString.coord_unchecked (l : LineString) (i : Nat) : Coord :=
  ⟨l.buf, l.byte_order, l.coord_offset i, l.dim⟩

/-- A WKB Polygon view (`reader/polygon.rs`): the eagerly constructed
rings, the dimension, and the SRID flag. -/
structure Polygon where
  wkb_linear_rings : List LinearRing
  dim : Dimension
  has_srid : Bool
deriving Repr

/-- `Polygon::size`: header plus every ring's size. -/
def Polygon.size (p : Polygon) : Nat :=
  (1 + 4 + 4 + (if p.has_srid then 4 else 0)) +
    (p.wkb_linear_rings.map LinearRing.size).sum

/-- `PolygonTrait::num_interiors`: all rings but the first. -/
def Polygon.num_interiors (p : Polygon) : Nat :=
  if p.wkb_linear_rings.isEmpty then 0 else p.wkb_linear_rings.length - 1

/-- `PolygonTrait::exterior`: the first ring, when any. -/
def Polygon.exterior (p : Polygon) : Option LinearRing :=
  p.wkb_linear_rings.head?

/-- The ring loop of `Polygon::try_new`: construct `n` rings back-to-back
starting at `ringOffset`, each starting at the previous ring's end. -/
def parseRings (buf : List Nat) (bo : Endianness) (dim : Dimension) :
    Nat → Nat → Outcome (List LinearRing)
  | 0, _ => .ok []
  | n + 1, ringOffset =>
    match LinearRing.try_new buf bo ringOffset dim with
    | .ok r =>
      match parseRings buf bo dim n (ringOffset + r.size) with
      | .ok rs => .ok (r :: rs)
      | .error e => .error e
      | .panic => .panic
    | .error e => .error e
    | .panic => .panic

/-- `Polygon::try_new`: probe the SRID flag, read the `u32` ring count
after the 5-byte header, and construct that many rings back-to-back from
offset `offset + 9` (after header and count). -/
def Polygon.try_new (buf : List Nat) (bo : Endianness) (offset : Nat)
    (dim : Dimension) : Outcome Polygon :=
  match hasSrid buf bo offset with
  | .error e => .error e
  | .panic => .panic
  | .ok srid =>
    let off := offset + (if srid then 4 else 0)
    match readU32 bo buf (5 + off) with
    | none => .error .ioError
    | some nr =>
      (parseRings buf bo dim nr (off + 1 + 4 + 4)).map fun rs =>
        { wkb_linear_rings := rs, dim := dim, has_srid := srid }

/-- A WKB MultiPoint view (`reader/multipoint.rs`). -/
structure MultiPoint where
  buf : List Nat
  byte_order : Endianness
  num_points : Nat
  dim : Dimension
  has_srid : Bool
deriving Repr

/-- `MultiPoint::point_offset`: each child is a full Point WKB object of
`1 + 4 + dim.size * 8` bytes after the multi-point header and count. -/
def MultiPoint.point_offset (m : MultiPoint) (i : Nat) : Nat :=
  (1 + 4 + 4 + (if m.has_srid then 4 else 0)) + (1 + 4 + m.dim.size * 8) * i

/-- `MultiPoint::size`. -/
def MultiPoint.size (m : MultiPoint) : Nat :=
  m.point_offset m.num_points

/-- `MultiPoint::try_new`: probe the SRID flag, read the `u32` point count
after the 5-byte header, and reject the multi-point when the computed end
of the uniformly-sized children exceeds the buffer length. -/
def MultiPoint.try_new (buf : List Nat) (bo : Endianness)
    (dim : Dimension) : Outcome MultiPoint :=
  match hasSrid buf bo 0 with
  | .error e => .error e
  | .panic => .panic
  | .ok srid =>
    let off := if srid then 4 else 0
    match readU32 bo buf (5 + off) with
    | none => .error .ioError
    | some np =>
      let m : MultiPoint := ⟨buf, bo, np, dim, srid⟩
      if m.point_offset np > buf.length then
        .error (.invalidBufferLength (m.point_offset np) buf.length)
      else .ok m

/-- `MultiPointTrait::point_unchecked`: build the child `Point` with
`Point::new` (which `unwrap`s). -/
def MultiPoint.point_unchecked (m : MultiPoint) (i : Nat) : Outcome Point :=
  Point.new m.buf m.byte_order (m.point_offset i) m.dim

/-- A WKB MultiLineString view (`reader/multilinestring.rs`). -/
structure MultiLineString where
  wkb_line_strings : List LineString
  dim : Dimension
  has_srid : Bool
deriving Repr

/-- `MultiLineString::size`: header plus every child's size. -/
def MultiLineString.size (m : MultiLineString) : Nat :=
  (1 + 4 + 4 + (if m.has_srid then 4 else 0)) +
    (m.wkb_line_strings.map LineString.size).sum

/-- The child loop of `MultiLineString::try_new`: each child is parsed by
`LineString::try_new` at the running offset (so each child carries its own
5-byte header), and its size advances the offset. -/
def parseLineStrings (buf : List Nat) (bo : Endianness) (dim : Dimension) :
    Nat → Nat → Outcome (List LineString)
  | 0, _ => .ok []
  | n + 1, lsOffset =>
    match LineString.try_new buf bo lsOffset dim with
    | .ok l =>
      match parseLineStrings buf bo dim n (lsOffset + l.size) with
      | .ok ls => .ok (l :: ls)
      | .error e => .error e
      | .panic => .panic
    | .error e => .error e
    | .panic => .panic

/-- `MultiLineString::try_new`. -/
def MultiLineString.try_new (buf : List Nat) (bo : Endianness)
    (dim : Dimension) : Outcome MultiLineString :=
  match hasSrid buf bo 0 with
  | .error e => .error e
  | .panic => .panic
  | .ok srid =>
    let off := if srid then 4 else 0
    match readU32 bo buf (5 + off) with
    | none => .error .ioError
    | some n =>
      (parseLineStrings buf bo dim n (1 + 4 + 4 + off)).map fun ls =>
        { wkb_line_strings := ls, dim := dim, has_srid := srid }

/-- A WKB MultiPolygon view (`reader/multipolygon.rs`). -/
structure MultiPolygon where
  wkb_polygons : List Polygon
  dim : Dimension
  has_srid : Bool
deriving Repr

/-- `MultiPolygon::size`: header plus every child's size. -/
def MultiPolygon.size (m : MultiPolygon) : Nat :=
  (1 + 4 + 4 + (if m.has_srid then 4 else 0)) +
    (m.wkb_polygons.map Polygon.size).sum

/-- The child loop of `MultiPolygon::try_new`: each child is parsed by
`Polygon::try_new` at the running offset (so each child carries its own
5-byte header), and its size advances the offset. -/
def parsePolygons (buf : List Nat) (bo : Endianness) (dim : Dimension) :
    Nat → Nat → Outcome (List Polygon)
  | 0, _ => .ok []
  | n + 1, pOffset =>
    match Polygon.try_new buf bo pOffset dim with
    | .ok p =>
      match parsePolygons buf bo dim n (pOffset + p.size) with
      | .ok ps => .ok (p :: ps)
      | .error e => .error e
      | .panic => .panic
    | .error e => .error e
    | .panic => .panic

/-- `MultiPolygon::try_new`. -/
def MultiPolygon.try_new (buf : List Nat) (bo : Endianness)
    (dim : Dimension) : Outcome MultiPolygon :=
  match hasSrid buf bo 0 with
  | .error e => .error e
  | .panic => .panic
  | .ok srid =>
    let off := if srid then 4 else 0
    match readU32 bo buf (5 + off) with
    | none => .error .ioError
    | some n =>
      (parsePolygons buf bo dim n (1 + 4 + 4 + off)).map fun ps =>
        { wkb_polygons := ps, dim := dim, has_srid := srid }

/-- The parsed top-level geometry (`Wkb` / `WkbInner` in
`reader/geometry.rs`, fused with `GeometryCollection` from
`reader/geometry_collection.rs`).  The source `Wkb` wraps the tagged union
`WkbInner` together with the original buffer reference; each variant's
view already retains its buffer, so the embedding keeps only the union.
The `geometryCollection` constructor carries the child geometries, the
length of the retained slice `buf[0..geometry_offset]`, and the
dimension. -/
inductive Wkb where
  | point : Point → Wkb
  | lineString : LineString → Wkb
  | polygon : Polygon → Wkb
  | multiPoint : MultiPoint → Wkb
  | multiLineString : MultiLineString → Wkb
  | multiPolygon : MultiPolygon → Wkb
  | geometryCollection : List Wkb → Nat → Dimension → Wkb

/-- `Wkb::size`: delegate to the active variant. -/
def Wkb.size : Wkb → Nat
  | .point p => p.size
  | .lineString l => l.size
  | .polygon p => p.size
  | .multiPoint m => m.size
  | .multiLineString m => m.size
  | .multiPolygon m => m.size
  | .geometryCollection _ bufLen _ => bufLen

/-- The child loop of `GeometryCollection::try_new`: each child is a fully
independent top-level parse of `buf[off..]` (the slice panics when `off`
exceeds the buffer length), and the child's size advances the offset.
Returns the children and the final offset. -/
def parseGeometries (p : List Nat → Outcome Wkb) (buf : List Nat) :
    Nat → Nat → Outcome (List Wkb × Nat)
  | 0, off => .ok ([], off)
  | n + 1, off =>
    if off > buf.length then .panic
    else
      match p (buf.drop off) with
      | .ok g =>
        match parseGeometries p buf n (off + g.size) with
        | .ok (gs, fin) => .ok (g :: gs, fin)
        | .error e => .error e
        | .panic => .panic
      | .error e => .error e
      | .panic => .panic

/-- `GeometryCollection::try_new`, parameterized by the recursive
top-level parse `p`: probe the SRID flag, read the `u32` child count, and
parse that many self-described children back-to-back.  The retained slice
`buf[0..geometry_offset]` panics when the final offset exceeds the buffer
length. -/
def GeometryCollection.try_new (p : List Nat → Outcome Wkb)
    (buf : List Nat) (bo : Endianness) (dim : Dimension) : Outcome Wkb :=
  match hasSrid buf bo 0 with
  | .error e => .error e
  | .panic => .panic
  | .ok srid =>
    let ngOff := 5 + (if srid then 4 else 0)
    match readU32 bo buf ngOff with
    | none => .error .ioError
    | some n =>
      match parseGeometries p buf n (ngOff + 4) with
      | .ok (gs, fin) =>
        if fin > buf.length then .panic
        else .ok (.geometryCollection gs fin dim)
      | .error e => .error e
      | .panic => .panic

/-- `WkbInner::try_new` (via `Wkb::try_new`), with explicit recursion
fuel: read the byte-order marker (`?`-propagated), map it through
`Endianness::try_from`, read the full header through
`WkbType::from_buffer`, and dispatch on the decoded type.  Only the
geometry-collection case recurses, on one unit less fuel; `read_wkb`
supplies enough fuel that the `fuelExhausted` branch is unreachable. -/
def parseWkb : Nat → List Nat → Outcome Wkb
  | 0, _ => .error .fuelExhausted
  | fuel + 1, buf =>
    match readU8 buf 0 with
    | none => .error .ioError
    | some b =>
      match endiannessOfByte b with
      | none => .error .invalidByteOrder
      | some bo =>
        match WkbType.from_buffer buf with
        | .error e => .error e
        | .panic => .panic
        | .ok t =>
          match t with
          | .point dim => (Point.try_new buf bo 0 dim).map Wkb.point
          | .lineString dim => (LineString.try_new buf bo 0 dim).map Wkb.lineString
          | .polygon dim => (Polygon.try_new buf bo 0 dim).map Wkb.polygon
          | .multiPoint dim => (MultiPoint.try_new buf bo dim).map Wkb.multiPoint
          | .multiLineString dim =>
              (MultiLineString.try_new buf bo dim).map Wkb.multiLineString
          | .multiPolygon dim => (MultiPolygon.try_new buf bo dim).map Wkb.multiPolygon
          | .geometryCollection dim =>
              GeometryCollection.try_new (parseWkb fuel) buf bo dim

/-- `read_wkb` / `Wkb::try_new`: parse a WKB byte slice into a geometry.
Every level of geometry-collection nesting consumes at least 9 bytes of
the buffer, so `buf.length + 1` units of fuel always suffice. -/
def read_wkb (buf : List Nat) : Outcome Wkb :=
  parseWkb (buf.length + 1) buf

/-! ### The owned geometry model

The writer is generic over the `geo-traits` capability contract and the
round-trip tests equate geometries after materializing the parsed views to
owned `geo-types` values.  The owned model carries one coordinate as its
list of ordinate bit patterns; a polygon is its list of rings (first
exterior), mirroring the WKB layout the accessors expose. -/

/-- One owned coordinate: its ordinates as 64-bit `f64` bit patterns. -/
structure OCoord where
  ords : List Nat
deriving DecidableEq, Repr

/-- An owned geometry of the seven supported kinds.  A `point` with `none`
is POINT EMPTY; a `polygon` is its rings, the first being the exterior. -/
inductive OGeometry where
  | point : Option OCoord → OGeometry
  | lineString : List OCoord → OGeometry
  | polygon : List (List OCoord) → OGeometry
  | multiPoint : List (Option OCoord) → OGeometry
  | multiLineString : List (List OCoord) → OGeometry
  | multiPolygon : List (List (List OCoord)) → OGeometry
  | geometryCollection : List OGeometry → OGeometry

/-! ### Writer (`src/writer/*.rs`) -/

/-- `write_coord`: the ordinates of one coordinate, in order.  Modelled
from the spec (`writer/coord.rs` is not in the source snapshot): a
coordinate is `dimension_size × 8` bytes of doubles in the declared
order. -/
def write_coord (bo : Endianness) (c : OCoord) : List Nat :=
  (c.ords.map (f64Bytes bo)).flatten

/-- `write_point`: byte-order marker, type code, then the coordinate, or
`dim.size` `f64::NAN` ordinates for POINT EMPTY. -/
def write_point (bo : Endianness) (dim : Dimension) (c : Option OCoord) :
    List Nat :=
  Endianness.toByte bo :: u32Bytes bo (WkbType.point dim).code ++
    (match c with
     | some c => write_coord bo c
     | none => (List.replicate dim.size (f64Bytes bo nanBits)).flatten)

/-- `write_line_string`: byte-order marker, type code, `u32` point count
(`try_into` fails when the count exceeds `u32::MAX`), then the
coordinates. -/
def write_line_string (bo : Endianness) (dim : Dimension)
    (cs : List OCoord) : Option (List Nat) :=
  if cs.length < 4294967296 then
    some (Endianness.toByte bo :: u32Bytes bo (WkbType.lineString dim).code ++
      u32Bytes bo cs.length ++ (cs.map (write_coord bo)).flatten)
  else none

/-- Collect a list of optional values, failing when any is `none`. -/
def collectOpt {α : Type} : List (Option α) → Option (List α)
  | [] => some []
  | none :: _ => none
  | some a :: rest => (collectOpt rest).map (a :: ·)

/-- One ring of a polygon on the wire: `u32` point count plus coordinate
data, with no header.  Modelled from the spec (`writer/polygon.rs` is not
in the source snapshot): "Polygon: u32 ring count, then that many
LinearRings (first = exterior)" where a LinearRing is "u32 point count,
then that many coordinate blocks". -/
def write_ring (bo : Endianness) (ring : List OCoord) : Option (List Nat) :=
  if ring.length < 4294967296 then
    some (u32Bytes bo ring.length ++ (ring.map (write_coord bo)).flatten)
  else none

/-- `write_polygon`: byte-order marker, type code, `u32` ring count, then
the headerless rings back-to-back.  Modelled from the spec
(`writer/polygon.rs` is not in the source snapshot). -/
def write_polygon (bo : Endianness) (dim : Dimension)
    (rings : List (List OCoord)) : Option (List Nat) :=
  if rings.length < 4294967296 then
    (collectOpt (rings.map (write_ring bo))).map fun rbs =>
      Endianness.toByte bo :: u32Bytes bo (WkbType.polygon dim).code ++
        u32Bytes bo rings.length ++ rbs.flatten
  else none

/-- `write_multi_point`: byte-order marker, type code, `u32` count, then
that many full nested Point WKB objects (each written by `write_point`,
so each carries its own 5-byte header). -/
def write_multi_point (bo : Endianness) (dim : Dimension)
    (cs : List (Option OCoord)) : Option (List Nat) :=
  if cs.length < 4294967296 then
    some (Endianness.toByte bo :: u32Bytes bo (WkbType.multiPoint dim).code ++
      u32Bytes bo cs.length ++ (cs.map (write_point bo dim)).flatten)
  else none

/-- `write_multi_line_string`: byte-order marker, type code, `u32` count,
then that many full nested LineString WKB objects (each written by
`write_line_string`, so each carries its own 5-byte header). -/
def write_multi_line_string (bo : Endianness) (dim : Dimension)
    (lss : List (List OCoord)) : Option (List Nat) :=
  if lss.length < 4294967296 then
    (collectOpt (lss.map (write_line_string bo dim))).map fun bss =>
      Endianness.toByte bo :: u32Bytes bo (WkbType.multiLineString dim).code ++
        u32Bytes bo lss.length ++ bss.flatten
  else none

/-- `write_multi_polygon`: byte-order marker, type code, `u32` count (the
source `unwrap`s the conversion; an overflowing count cannot occur below),
then that many full nested Polygon WKB objects. -/
def write_multi_polygon (bo : Endianness) (dim : Dimension)
    (ps : List (List (List OCoord))) : Option (List Nat) :=
  if ps.length < 4294967296 then
    (collectOpt (ps.map (write_polygon bo dim))).map fun bss =>
      Endianness.toByte bo :: u32Bytes bo (WkbType.multiPolygon dim).code ++
        u32Bytes bo ps.length ++ bss.flatten
  else none

mutual

/-- `write_geometry`: dispatch on the geometry kind
(`writer/geometry.rs`).  The dimension is that of the geometry being
written (every component of a well-formed geometry shares it). -/
def write_geometry (bo : Endianness) (dim : Dimension) :
    OGeometry → Option (List Nat)
  | .point c => some (write_point bo dim c)
  | .lineString cs => write_line_string bo dim cs
  | .polygon rs => write_polygon bo dim rs
  | .multiPoint cs => write_multi_point bo dim cs
  | .multiLineString ls => write_multi_line_string bo dim ls
  | .multiPolygon ps => write_multi_polygon bo dim ps
  | .geometryCollection gs =>
    if gs.length < 4294967296 then
      (write_geometry_list bo dim gs).map fun bss =>
        Endianness.toByte bo ::
          u32Bytes bo (WkbType.geometryCollection dim).code ++
          u32Bytes bo gs.length ++ bss.flatten
    else none

/-- The child loop of `write_geometry_collection`: write every child as a
full top-level geometry. -/
def write_geometry_list (bo : Endianness) (dim : Dimension) :
    List OGeometry → Option (List (List Nat))
  | [] => some []
  | g :: gs =>
    match write_geometry bo dim g with
    | none => none
    | some bs => (write_geometry_list bo dim gs).map (bs :: ·)

end

/-! ### Materialization to the owned model

The reader's output feeds an external "materialize to owned geometry"
collaborator (`geo_traits::to_geo`, used by the crate's round-trip
tests).  Modelled from the spec: it walks the views through their
accessor methods, reading each coordinate's ordinates in order. -/

/-- Read `n` consecutive doubles starting at `pos` (the ordinate reads a
`Coord` performs, each `unwrap`ped). -/
def readOrds (bo : Endianness) (buf : List Nat) :
    Nat → Nat → Outcome (List Nat)
  | 0, _ => .ok []
  | n + 1, pos =>
    match readF64 bo buf pos with
    | none => .panic
    | some b => (readOrds bo buf n (pos + 8)).map (b :: ·)

/-- Materialize one coordinate view: its `dim.size` ordinates. -/
def materializeCoord (c : Coord) : Outcome OCoord :=
  (readOrds c.byte_order c.buf c.dim.size c.offset).map OCoord.mk

/-- Materialize a point view through `PointTrait::coord`. -/
def materializePoint (p : Point) : Outcome (Option OCoord) :=
  match p.coordOpt with
  | none => .ok none
  | some c => (materializeCoord c).map some

/-- Materialize `count` coordinates laid out back-to-back from `pos`. -/
def materializeCoordSeq (bo : Endianness) (buf : List Nat) (dim : Dimension) :
    Nat → Nat → Outcome (List OCoord)
  | 0, _ => .ok []
  | n + 1, pos =>
    match readOrds bo buf dim.size pos with
    | .ok bs =>
      (materializeCoordSeq bo buf dim n (pos + 8 * dim.size)).map
        (OCoord.mk bs :: ·)
    | .error e => .error e
    | .panic => .panic

/-- Materialize a line-string view: its `num_points` coordinates starting
at `coord_offset 0`. -/
def materializeLineString (l : LineString) : Outcome (List OCoord) :=
  materializeCoordSeq l.byte_order l.buf l.dim l.num_points (l.coord_offset 0)

/-- Materialize a linear-ring view. -/
def materializeRing (r : LinearRing) : Outcome (List OCoord) :=
  materializeCoordSeq r.byte_order r.buf r.dim r.num_points (r.coord_offset 0)

/-- Collect a list of outcomes, propagating the first failure. -/
def Outcome.collect {α : Type} : List (Outcome α) → Outcome (List α)
  | [] => .ok []
  | o :: os =>
    match o with
    | .ok a => (Outcome.collect os).map (a :: ·)
    | .error e => .error e
    | .panic => .panic

/-- Materialize a polygon view: its rings in order. -/
def materializePolygon (p : Polygon) : Outcome (List (List OCoord)) :=
  Outcome.collect (p.wkb_linear_rings.map materializeRing)

/-- Materialize the children of a multi-point view through
`point_unchecked` at indices `i, i+1, ...`. -/
def materializePoints (m : MultiPoint) : Nat → Nat → Outcome (List (Option OCoord))
  | 0, _ => .ok []
  | n + 1, i =>
    match m.point_unchecked i with
    | .ok p =>
      match materializePoint p with
      | .ok c => (materializePoints m n (i + 1)).map (c :: ·)
      | .error e => .error e
      | .panic => .panic
    | .error e => .error e
    | .panic => .panic

/-- Materialize a multi-point view. -/
def materializeMultiPoint (m : MultiPoint) : Outcome (List (Option OCoord)) :=
  materializePoints m m.num_points 0

mutual

/-- Materialize any parsed geometry to the owned model. -/
def materializeWkb : Wkb → Outcome OGeometry
  | .point p => (materializePoint p).map OGeometry.point
  | .lineString l => (materializeLineString l).map OGeometry.lineString
  | .polygon p => (materializePolygon p).map OGeometry.polygon
  | .multiPoint m => (materializeMultiPoint m).map OGeometry.multiPoint
  | .multiLineString m =>
    (Outcome.collect (m.wkb_line_strings.map materializeLineString)).map
      OGeometry.multiLineString
  | .multiPolygon m =>
    (Outcome.collect (m.wkb_polygons.map materializePolygon)).map
      OGeometry.multiPolygon
  | .geometryCollection gs _ _ =>
    (materializeWkbList gs).map OGeometry.geometryCollection

/-- Materialize a geometry collection's children in order. -/
def materializeWkbList : List Wkb → Outcome (List OGeometry)
  | [] => .ok []
  | g :: gs =>
    match materializeWkb g with
    | .ok og => (materializeWkbList gs).map (og :: ·)
    | .error e => .error e
    | .panic => .panic

end

/-! ### Well-formed owned geometries

The round-trip property quantifies over geometries of a supported kind
and dimension.  Well-formedness states exactly that: every coordinate has
the declared dimension's arity with genuine 64-bit patterns, every count
fits a `u32`, and no nonempty point is the all-NaN POINT EMPTY sentinel
(WKB cannot distinguish such a point from POINT EMPTY). -/

/-- A coordinate matching the declared dimension. -/
def OkCoord (dim : Dimension) (c : OCoord) : Prop :=
  c.ords.length = dim.size ∧ ∀ b ∈ c.ords, b < 18446744073709551616

/-- A point payload that survives the empty-point sentinel encoding. -/
def OkPointCoord (dim : Dimension) (co : Option OCoord) : Prop :=
  ∀ c ∈ co, OkCoord dim c ∧ ¬ ∀ b ∈ c.ords, isNanBits b = true

/-- A `u32`-representable count. -/
def OkCount (n : Nat) : Prop := n < 4294967296

/-- A well-formed ring or coordinate sequence. -/
def OkRing (dim : Dimension) (cs : List OCoord) : Prop :=
  OkCount cs.length ∧ ∀ c ∈ cs, OkCoord dim c

/-- A well-formed polygon: every ring well-formed, counts in range. -/
def OkPoly (dim : Dimension) (rings : List (List OCoord)) : Prop :=
  OkCount rings.length ∧ ∀ r ∈ rings, OkRing dim r

/-- Well-formedness of an owned geometry at a dimension. -/
inductive WF : Dimension → OGeometry → Prop where
  | point : ∀ {dim co}, OkPointCoord dim co → WF dim (.point co)
  | lineString : ∀ {dim cs}, OkRing dim cs → WF dim (.lineString cs)
  | polygon : ∀ {dim rs}, OkPoly dim rs → WF dim (.polygon rs)
  | multiPoint : ∀ {dim cs}, OkCount cs.length →
      (∀ co ∈ cs, OkPointCoord dim co) → WF dim (.multiPoint cs)
  | multiLineString : ∀ {dim lss}, OkCount lss.length →
      (∀ ls ∈ lss, OkRing dim ls) → WF dim (.multiLineString lss)
  | multiPolygon : ∀ {dim ps}, OkCount ps.length →
      (∀ p ∈ ps, OkPoly dim p) → WF dim (.multiPolygon ps)
  | geometryCollection : ∀ {dim gs}, OkCount gs.length →
      (∀ g ∈ gs, WF dim g) → WF dim (.geometryCollection gs)

/-! ## Proofs

### Byte-level lemmas -/

theorem u32Bytes_length (bo : Endianness) (n : Nat) : (u32Bytes bo n).length = 4 := by
  cases bo <;> simp [u32Bytes, u32BytesLE]

theorem f64Bytes_length (bo : Endianness) (n : Nat) : (f64Bytes bo n).length = 8 := by
  cases bo <;> simp [f64Bytes, f64BytesLE]

theorem Endianness.ofByte_toByte (bo : Endianness) :
    endiannessOfByte bo.toByte = some bo := by
  cases bo <;> rfl

/-- Shift a layout fact across a known prefix. -/
theorem drop_shift {buf pre tail : List Nat} {pos : Nat}
    (h : buf.drop pos = pre ++ tail) (k : Nat) (hk : k = pre.length) :
    buf.drop (pos + k) = tail := by
  subst hk
  rw [← List.drop_drop, h, List.drop_left]

/-- Length of the buffer from a layout fact. -/
theorem length_of_drop {buf tail : List Nat} {pos : Nat}
    (h : buf.drop pos = tail) (hpos : pos ≤ buf.length) :
    buf.length = pos + tail.length := by
  have := congrArg List.length h
  rw [List.length_drop] at this
  omega

theorem readU32_layout {buf rest : List Nat} {pos n : Nat} (bo : Endianness)
    (h : buf.drop pos = u32Bytes bo n ++ rest) (hn : n < 4294967296) :
    readU32 bo buf pos = some n := by
  cases bo <;>
    simp only [readU32, u32Bytes, u32BytesLE, List.reverse_cons, List.reverse_nil,
      List.nil_append, List.cons_append, List.append_assoc] at h ⊢ <;>
    rw [h] <;> simp [assemble32LE, assemble32BE] <;> omega

theorem readF64_layout {buf rest : List Nat} {pos n : Nat} (bo : Endianness)
    (h : buf.drop pos = f64Bytes bo n ++ rest) (hn : n < 18446744073709551616) :
    readF64 bo buf pos = some n := by
  cases bo <;>
    simp only [readF64, f64Bytes, f64BytesLE, List.reverse_cons, List.reverse_nil,
      List.nil_append, List.cons_append, List.append_assoc] at h ⊢ <;>
    rw [h] <;> simp [assemble64LE, assemble64BE] <;> omega

/-- A successful four-byte read needs at least four bytes past `pos`. -/
theorem readU32_le {buf : List Nat} {pos n : Nat} {bo : Endianness}
    (h : readU32 bo buf pos = some n) : pos + 4 ≤ buf.length := by
  by_contra hlt
  have hd : (buf.drop pos).length < 4 := by
    rw [List.length_drop]; omega
  cases bo <;> simp only [readU32] at h <;>
    (match hdrop : buf.drop pos with
     | [] => rw [hdrop] at h; simp [assemble32LE, assemble32BE] at h
     | [a] => rw [hdrop] at h; simp [assemble32LE, assemble32BE] at h
     | [a, b] => rw [hdrop] at h; simp [assemble32LE, assemble32BE] at h
     | [a, b, c] => rw [hdrop] at h; simp [assemble32LE, assemble32BE] at h
     | a :: b :: c :: d :: t => rw [hdrop] at hd; simp at hd; omega)

/-- A type code written by the crate never carries the EWKB SRID flag. -/
theorem codeHasSrid_small {code : Nat} (h : code < 536870912) :
    codeHasSrid code = false :=
  Nat.testBit_lt_two_pow h

theorem WkbType.code_le (t : WkbType) : t.code ≤ 3007 := by
  cases t with
  | point d => cases d <;> decide
  | lineString d => cases d <;> decide
  | polygon d => cases d <;> decide
  | multiPoint d => cases d <;> decide
  | multiLineString d => cases d <;> decide
  | multiPolygon d => cases d <;> decide
  | geometryCollection d => cases d <;> decide

theorem getType_code (t : WkbType) : getType t.code = .ok t := by
  cases t with
  | point d => cases d <;> decide
  | lineString d => cases d <;> decide
  | polygon d => cases d <;> decide
  | multiPoint d => cases d <;> decide
  | multiPolygon d => cases d <;> decide
  | multiLineString d => cases d <;> decide
  | geometryCollection d => cases d <;> decide

/-- Decoding the header of a buffer that starts with a written marker and
type code recovers the type. -/
theorem from_buffer_layout {buf rest : List Nat} {bo : Endianness} {code : Nat}
    (h : buf = Endianness.toByte bo :: u32Bytes bo code ++ rest)
    (hc : code < 4294967296) :
    WkbType.from_buffer buf = getType code := by
  have h0 : buf.drop 0 = [Endianness.toByte bo] ++ (u32Bytes bo code ++ rest) := by
    simpa using h
  have h1 : buf.drop 1 = u32Bytes bo code ++ rest := drop_shift h0 1 (by simp)
  have hr : readU8 buf 0 = some bo.toByte := by
    rw [readU8, List.drop_zero, h]; rfl
  cases bo with
  | bigEndian =>
    rw [WkbType.from_buffer, hr]
    simp only [Endianness.toByte, readU32_layout .bigEndian h1 hc]
    simp
  | littleEndian =>
    rw [WkbType.from_buffer, hr]
    simp only [Endianness.toByte, readU32_layout .littleEndian h1 hc]
    rfl

/-- Probing the SRID flag of a written header yields `false` (no writer in
the crate emits the EWKB SRID flag). -/
theorem hasSrid_layout {buf rest : List Nat} {pos : Nat} {bo : Endianness}
    {code : Nat}
    (h : buf.drop pos = Endianness.toByte bo :: u32Bytes bo code ++ rest)
    (hc : code < 536870912) :
    hasSrid buf bo pos = .ok false := by
  have h0 : buf.drop pos = [Endianness.toByte bo] ++ (u32Bytes bo code ++ rest) := by
    simpa using h
  have h1 : buf.drop (pos + 1) = u32Bytes bo code ++ rest :=
    drop_shift h0 1 (by simp)
  rw [hasSrid, readU32_layout bo h1 (by omega)]
  show Outcome.ok (codeHasSrid code) = Outcome.ok false
  rw [codeHasSrid_small hc]

/-! ### Coordinate data lemmas -/

theorem write_coord_length {bo : Endianness} {dim : Dimension} {c : OCoord}
    (h : OkCoord dim c) : (write_coord bo c).length = 8 * dim.size := by
  rw [write_coord, List.length_flatten, List.map_map]
  have : (List.length ∘ f64Bytes bo) = fun (_ : Nat) => 8 := by
    funext b
    exact f64Bytes_length bo b
  rw [this]
  simp [List.sum_replicate, h.1, Nat.mul_comm]

theorem coords_bytes_length {bo : Endianness} {dim : Dimension}
    {cs : List OCoord} (h : ∀ c ∈ cs, OkCoord dim c) :
    ((cs.map (write_coord bo)).flatten).length = dim.size * 8 * cs.length := by
  induction cs with
  | nil => simp
  | cons c cs ih =>
    rw [List.map_cons, List.flatten_cons, List.length_append,
      write_coord_length (h c (by simp)), ih (fun x hx => h x (by simp [hx]))]
    simp only [List.length_cons]
    ring

/-- Reading back `n` consecutive doubles recovers the written ordinates. -/
theorem readOrds_layout {bo : Endianness} {buf : List Nat} :
    ∀ (ords : List Nat) (rest : List Nat) (pos : Nat),
      buf.drop pos = (ords.map (f64Bytes bo)).flatten ++ rest →
      (∀ b ∈ ords, b < 18446744073709551616) →
      readOrds bo buf ords.length pos = .ok ords := by
  intro ords
  induction ords with
  | nil => intro rest pos _ _; simp [readOrds]
  | cons b t ih =>
    intro rest pos h hb
    rw [List.map_cons, List.flatten_cons, List.append_assoc] at h
    have hv : readF64 bo buf pos = some b :=
      readF64_layout bo h (hb b (by simp))
    have h8 : buf.drop (pos + 8) = (t.map (f64Bytes bo)).flatten ++ rest :=
      drop_shift h 8 (f64Bytes_length bo b).symm
    rw [List.length_cons, readOrds, hv,
      ih rest (pos + 8) h8 (fun x hx => hb x (by simp [hx]))]
    rfl

/-- Reading a single ordinate out of a written coordinate run. -/
theorem readF64_at_index {bo : Endianness} {buf : List Nat} :
    ∀ (ords : List Nat) (rest : List Nat) (pos k : Nat) (hk : k < ords.length),
      buf.drop pos = (ords.map (f64Bytes bo)).flatten ++ rest →
      (∀ b ∈ ords, b < 18446744073709551616) →
      readF64 bo buf (pos + 8 * k) = some (ords.get ⟨k, hk⟩) := by
  intro ords
  induction ords with
  | nil => intro rest pos k hk; simp at hk
  | cons b t ih =>
    intro rest pos k hk h hb
    rw [List.map_cons, List.flatten_cons, List.append_assoc] at h
    cases k with
    | zero =>
      simpa using readF64_layout bo h (hb b (by simp))
    | succ k =>
      have h8 : buf.drop (pos + 8) = (t.map (f64Bytes bo)).flatten ++ rest :=
        drop_shift h 8 (f64Bytes_length bo b).symm
      have := ih rest (pos + 8) k (by simpa using hk) h8
        (fun x hx => hb x (by simp [hx]))
      have harith : pos + 8 + 8 * k = pos + 8 * (k + 1) := by omega
      rw [harith] at this
      simpa using this

/-- Materializing a written coordinate sequence recovers it. -/
theorem materializeCoordSeq_layout {bo : Endianness} {buf : List Nat}
    {dim : Dimension} :
    ∀ (cs : List OCoord) (rest : List Nat) (pos : Nat),
      buf.drop pos = (cs.map (write_coord bo)).flatten ++ rest →
      (∀ c ∈ cs, OkCoord dim c) →
      materializeCoordSeq bo buf dim cs.length pos = .ok cs := by
  intro cs
  induction cs with
  | nil => intro rest pos _ _; simp [materializeCoordSeq]
  | cons c t ih =>
    intro rest pos h hc
    rw [List.map_cons, List.flatten_cons, List.append_assoc] at h
    have hc0 := hc c (by simp)
    have hords : buf.drop pos =
        (c.ords.map (f64Bytes bo)).flatten ++ ((t.map (write_coord bo)).flatten ++ rest) := by
      rw [h]; rfl
    have hr : readOrds bo buf dim.size pos = .ok c.ords := by
      have := readOrds_layout c.ords ((t.map (write_coord bo)).flatten ++ rest) pos
        hords hc0.2
      rwa [hc0.1] at this
    have hnext : buf.drop (pos + 8 * dim.size) =
        (t.map (write_coord bo)).flatten ++ rest := by
      refine drop_shift h (8 * dim.size) ?_
      rw [write_coord_length hc0]
    rw [List.length_cons, materializeCoordSeq, hr,
      ih rest (pos + 8 * dim.size) hnext (fun x hx => hc x (by simp [hx]))]
    rfl

/-! ### Per-geometry parse and round-trip lemmas -/

theorem write_point_length (bo : Endianness) (dim : Dimension)
    (co : Option OCoord) (hco : OkPointCoord dim co) :
    (write_point bo dim co).length = 5 + dim.size * 8 := by
  cases co with
  | none =>
    simp only [write_point, List.length_cons, List.length_append,
      u32Bytes_length, List.length_flatten, List.map_map]
    have : (List.length ∘ f64Bytes bo) = fun (_ : Nat) => 8 := by
      funext b
      exact f64Bytes_length bo b
    rw [List.map_replicate]
    simp only [Function.comp, f64Bytes_length]
    rw [List.sum_replicate]
    simp
  | some c =>
    have : (write_coord bo c).length = 8 * dim.size :=
      write_coord_length ((hco c rfl).1)
    simp only [write_point, List.length_cons, List.length_append,
      u32Bytes_length, this]
    omega

/-- The ordinate bytes a point body consists of: the coordinate's
ordinates, or `dim.size` NaN sentinels for the empty point. -/
def pointOrds (dim : Dimension) (co : Option OCoord) : List Nat :=
  match co with
  | some c => c.ords
  | none => List.replicate dim.size nanBits

theorem pointOrds_length {dim : Dimension} {co : Option OCoord}
    (hco : OkPointCoord dim co) : (pointOrds dim co).length = dim.size := by
  cases co with
  | none => simp [pointOrds]
  | some c => simpa [pointOrds] using (hco c rfl).1.1

theorem pointOrds_lt {dim : Dimension} {co : Option OCoord}
    (hco : OkPointCoord dim co) :
    ∀ b ∈ pointOrds dim co, b < 18446744073709551616 := by
  cases co with
  | none =>
    intro b hb
    rw [show pointOrds dim none = List.replicate dim.size nanBits from rfl] at hb
    rw [List.eq_of_mem_replicate hb]
    decide
  | some c => exact (hco c rfl).1.2

theorem write_point_body (bo : Endianness) (dim : Dimension)
    (co : Option OCoord) :
    write_point bo dim co = Endianness.toByte bo ::
      u32Bytes bo (WkbType.point dim).code ++
      ((pointOrds dim co).map (f64Bytes bo)).flatten := by
  cases co with
  | none => simp [write_point, pointOrds, List.map_replicate]
  | some c => rfl

/-- Parsing a written point succeeds, consumes exactly the written bytes,
and materializes back to the original coordinate. -/
theorem point_parse_layout {buf rest : List Nat} {base : Nat}
    {bo : Endianness} {dim : Dimension} {co : Option OCoord}
    (h : buf.drop base = write_point bo dim co ++ rest)
    (hco : OkPointCoord dim co) :
    ∃ p : Point, Point.try_new buf bo base dim = .ok p ∧
      p.size = base + (5 + dim.size * 8) ∧
      materializePoint p = .ok co := by
  rw [write_point_body] at h
  have hcode := WkbType.code_le (.point dim)
  rw [show (Endianness.toByte bo :: u32Bytes bo (WkbType.point dim).code ++
      ((pointOrds dim co).map (f64Bytes bo)).flatten) ++ rest =
      Endianness.toByte bo :: u32Bytes bo (WkbType.point dim).code ++
      (((pointOrds dim co).map (f64Bytes bo)).flatten ++ rest) by simp] at h
  have hs : hasSrid buf bo base = .ok false :=
    hasSrid_layout h (by omega)
  have hlen : base + (5 + dim.size * 8) ≤ buf.length := by
    have := congrArg List.length h
    rw [List.length_drop] at this
    simp only [List.length_cons, List.length_append, u32Bytes_length,
      List.length_flatten, List.map_map] at this
    have hsum : ((pointOrds dim co).map (List.length ∘ f64Bytes bo)).sum =
        8 * dim.size := by
      have hfn : (List.length ∘ f64Bytes bo) = fun (_ : Nat) => 8 := by
        funext b
        exact f64Bytes_length bo b
      rw [hfn]
      simp [List.sum_replicate, pointOrds_length hco, Nat.mul_comm]
    rw [hsum] at this
    omega
  have hbody : buf.drop (base + 5) =
      ((pointOrds dim co).map (f64Bytes bo)).flatten ++ rest := by
    refine drop_shift h 5 ?_
    simp [u32Bytes_length]
  have hread : ∀ k (hk : k < dim.size),
      readF64 bo buf (base + 5 + 8 * k) =
        some ((pointOrds dim co).get ⟨k, by rw [pointOrds_length hco]; exact hk⟩) :=
    fun k hk => readF64_at_index (pointOrds dim co) rest (base + 5) k _ hbody
      (pointOrds_lt hco)
  have hnth : ∀ k (hk : k < dim.size),
      Coord.get_nth_unchecked ⟨buf, bo, base + 5, dim⟩ k =
        .ok ((pointOrds dim co).get ⟨k, by rw [pointOrds_length hco]; exact hk⟩) := by
    intro k hk
    rw [Coord.get_nth_unchecked]
    simp only [hread k hk]
  have hempt : ((List.range dim.size).all fun k =>
      match Coord.get_nth_unchecked ⟨buf, bo, base + 5, dim⟩ k with
      | .ok bits => isNanBits bits
      | _ => false) = co.isNone := by
    cases co with
    | none =>
      simp only [Option.isNone_none]
      rw [List.all_eq_true]
      intro k hk
      rw [List.mem_range] at hk
      rw [hnth k hk]
      show isNanBits ((pointOrds dim none).get _) = true
      have hgr : (pointOrds dim none).get
          ⟨k, by rw [pointOrds_length hco]; exact hk⟩ = nanBits :=
        by simp [pointOrds]
      rw [hgr]
      decide
    | some c =>
      simp only [Option.isNone_some]
      rw [List.all_eq_false]
      have hne := (hco c rfl).2
      have hlenc := (hco c rfl).1.1
      rw [not_forall] at hne
      obtain ⟨b, hbmem⟩ := hne
      rw [not_forall] at hbmem
      obtain ⟨hbm, hbn⟩ := hbmem
      obtain ⟨k, hbk⟩ := List.mem_iff_get.mp hbm
      have hk2 : (k : Nat) < dim.size := by
        have := k.isLt
        omega
      refine ⟨(k : Nat), List.mem_range.mpr hk2, ?_⟩
      rw [hnth (k : Nat) hk2]
      show ¬ (isNanBits ((pointOrds dim (some c)).get _) = true)
      have hgb : (pointOrds dim (some c)).get
          ⟨(k : Nat), by rw [pointOrds_length hco]; exact hk2⟩ = b := by
        rw [← hbk]
        rfl
      rw [hgb]
      exact hbn
  refine ⟨⟨⟨buf, bo, base + 5, dim⟩, base + 5 + dim.size * 8, dim, co.isNone⟩,
    ?_, ?_, ?_⟩
  · rw [Point.try_new]
    simp only [hs, Bool.false_eq_true, reduceIte, Nat.add_zero]
    rw [if_neg (by omega)]
    rw [hempt]
  · show base + 5 + dim.size * 8 = base + (5 + dim.size * 8)
    omega
  · cases co with
    | none => rfl
    | some c =>
      show ((readOrds bo buf dim.size (base + 5)).map OCoord.mk).map some =
        Outcome.ok (some c)
      have hro : readOrds bo buf c.ords.length (base + 5) = .ok c.ords :=
        readOrds_layout c.ords rest (base + 5)
          (by rw [hbody]; rfl) (hco c rfl).1.2
      rw [(hco c rfl).1.1] at hro
      rw [hro]
      rfl

theorem Outcome.collect_cons {α : Type} (o : Outcome α) (os : List (Outcome α)) :
    Outcome.collect (o :: os) = match o with
      | .ok a => (Outcome.collect os).map (a :: ·)
      | .error e => .error e
      | .panic => .panic := rfl

theorem collectOpt_cons_eq {α : Type} {o : Option α} {os : List (Option α)}
    {l : List α} (h : collectOpt (o :: os) = some l) :
    ∃ a t, o = some a ∧ collectOpt os = some t ∧ l = a :: t := by
  cases o with
  | none => simp [collectOpt] at h
  | some a =>
    rw [collectOpt] at h
    cases ht : collectOpt os with
    | none => rw [ht] at h; simp [Option.map] at h
    | some t =>
      rw [ht] at h
      simp only [Option.map] at h
      exact ⟨a, t, rfl, rfl, by injection h with h2; exact h2.symm⟩

theorem write_line_string_eq {bo : Endianness} {dim : Dimension}
    {cs : List OCoord} {bs : List Nat}
    (h : write_line_string bo dim cs = some bs) :
    cs.length < 4294967296 ∧
      bs = Endianness.toByte bo :: u32Bytes bo (WkbType.lineString dim).code ++
        (u32Bytes bo cs.length ++ (cs.map (write_coord bo)).flatten) := by
  rw [write_line_string] at h
  by_cases hn : cs.length < 4294967296
  · rw [if_pos hn] at h
    injection h with h2
    refine ⟨hn, ?_⟩
    rw [← h2]
    simp
  · rw [if_neg hn] at h
    cases h

theorem write_ring_eq {bo : Endianness} {ring : List OCoord} {bs : List Nat}
    (h : write_ring bo ring = some bs) :
    ring.length < 4294967296 ∧
      bs = u32Bytes bo ring.length ++ (ring.map (write_coord bo)).flatten := by
  rw [write_ring] at h
  by_cases hn : ring.length < 4294967296
  · rw [if_pos hn] at h
    injection h with h2
    exact ⟨hn, h2.symm⟩
  · rw [if_neg hn] at h
    cases h

/-- Parsing a written headerless ring at its count field succeeds, with
the written length, and materializes back to the original coordinates. -/
theorem ring_parse_layout {buf rest : List Nat} {pos : Nat} {bo : Endianness}
    {dim : Dimension} {cs : List OCoord}
    (h : buf.drop pos =
      u32Bytes bo cs.length ++ ((cs.map (write_coord bo)).flatten ++ rest))
    (hcs : OkRing dim cs) :
    LinearRing.try_new buf bo pos dim = .ok ⟨buf, bo, pos, cs.length, dim⟩ ∧
      (⟨buf, bo, pos, cs.length, dim⟩ : LinearRing).size =
        4 + dim.size * 8 * cs.length ∧
      materializeRing ⟨buf, bo, pos, cs.length, dim⟩ = .ok cs := by
  have hread : readU32 bo buf pos = some cs.length :=
    readU32_layout bo h hcs.1
  have hlen : pos + (4 + dim.size * 8 * cs.length) ≤ buf.length := by
    have hl := congrArg List.length h
    rw [List.length_drop] at hl
    simp only [List.length_append, u32Bytes_length,
      coords_bytes_length hcs.2] at hl
    omega
  have hcoords : buf.drop (pos + 4) = (cs.map (write_coord bo)).flatten ++ rest :=
    drop_shift h 4 (u32Bytes_length bo cs.length).symm
  refine ⟨?_, rfl, ?_⟩
  · rw [LinearRing.try_new, hread]
    show (if pos + (4 + dim.size * 8 * cs.length) > buf.length then _ else _) = _
    rw [if_neg (by omega)]
  · show materializeCoordSeq bo buf dim cs.length (pos + 4 + dim.size * 8 * 0) = _
    rw [show pos + 4 + dim.size * 8 * 0 = pos + 4 by omega]
    exact materializeCoordSeq_layout cs rest (pos + 4) hcoords hcs.2

/-- Parsing a written line string at its header succeeds, consumes exactly
the written bytes, and materializes back to the original coordinates. -/
theorem line_string_parse_layout {buf rest bs : List Nat} {pos : Nat}
    {bo : Endianness} {dim : Dimension} {cs : List OCoord}
    (henc : write_line_string bo dim cs = some bs)
    (h : buf.drop pos = bs ++ rest)
    (hcs : ∀ c ∈ cs, OkCoord dim c) :
    LineString.try_new buf bo pos dim = .ok ⟨buf, bo, cs.length, pos, dim, false⟩ ∧
      bs.length = 9 + dim.size * 8 * cs.length ∧
      materializeLineString ⟨buf, bo, cs.length, pos, dim, false⟩ = .ok cs := by
  obtain ⟨hn, hbs⟩ := write_line_string_eq henc
  rw [hbs] at h
  rw [show (Endianness.toByte bo :: u32Bytes bo (WkbType.lineString dim).code ++
      (u32Bytes bo cs.length ++ (cs.map (write_coord bo)).flatten)) ++ rest =
      Endianness.toByte bo :: u32Bytes bo (WkbType.lineString dim).code ++
      (u32Bytes bo cs.length ++ ((cs.map (write_coord bo)).flatten ++ rest))
      by simp] at h
  have hcode := WkbType.code_le (.lineString dim)
  have hs : hasSrid buf bo pos = .ok false := hasSrid_layout h (by omega)
  have hcnt : buf.drop (pos + 5) =
      u32Bytes bo cs.length ++ ((cs.map (write_coord bo)).flatten ++ rest) := by
    refine drop_shift h 5 ?_
    simp [u32Bytes_length]
  have hread : readU32 bo buf (5 + pos) = some cs.length := by
    rw [Nat.add_comm 5 pos]
    exact readU32_layout bo hcnt hn
  have hcoords : buf.drop (pos + 9) = (cs.map (write_coord bo)).flatten ++ rest :=
    drop_shift hcnt 4 (u32Bytes_length bo cs.length).symm
  have hp9 : pos + 9 ≤ buf.length := by
    have hl2 := congrArg List.length h
    rw [List.length_drop] at hl2
    simp only [List.length_cons, List.length_append, u32Bytes_length] at hl2
    omega
  have hlen : pos + 9 + dim.size * 8 * cs.length ≤ buf.length := by
    have hl := congrArg List.length hcoords
    rw [List.length_drop, List.length_append, coords_bytes_length hcs] at hl
    omega
  have hblen : bs.length = 9 + dim.size * 8 * cs.length := by
    rw [hbs]
    simp only [List.length_cons, List.length_append, u32Bytes_length,
      coords_bytes_length hcs]
    omega
  refine ⟨?_, hblen, ?_⟩
  · rw [LineString.try_new]
    simp only [hs, Bool.false_eq_true, reduceIte, Nat.add_zero, hread]
    show (if LineString.coord_offset _ cs.length > buf.length then _ else _) = _
    rw [if_neg ?_]
    show ¬ (pos + 1 + 4 + 4 + dim.size * 8 * cs.length > buf.length)
    omega
  · show materializeCoordSeq bo buf dim cs.length
      (pos + 1 + 4 + 4 + dim.size * 8 * 0) = _
    rw [show pos + 1 + 4 + 4 + dim.size * 8 * 0 = pos + 9 by omega]
    exact materializeCoordSeq_layout cs rest (pos + 9) hcoords hcs

/-- Parsing the written rings of a polygon back-to-back succeeds, consumes
exactly the written bytes, and materializes back to the original rings. -/
theorem rings_parse_layout {buf : List Nat} {bo : Endianness} {dim : Dimension} :
    ∀ (rss : List (List OCoord)) (rbs : List (List Nat)) (rest : List Nat)
      (pos : Nat),
      collectOpt (rss.map (write_ring bo)) = some rbs →
      buf.drop pos = rbs.flatten ++ rest →
      (∀ r ∈ rss, OkRing dim r) →
      ∃ rs : List LinearRing,
        parseRings buf bo dim rss.length pos = .ok rs ∧
        (rs.map LinearRing.size).sum = rbs.flatten.length ∧
        Outcome.collect (rs.map materializeRing) = .ok rss := by
  intro rss
  induction rss with
  | nil =>
    intro rbs rest pos hc h hok
    rw [List.map_nil] at hc
    injection hc with hc2
    subst hc2
    exact ⟨[], by rw [List.length_nil, parseRings], by simp, by simp [Outcome.collect]⟩
  | cons r rt ih =>
    intro rbs rest pos hc h hok
    rw [List.map_cons] at hc
    obtain ⟨rb0, rbt, hw0, hct, hrbs⟩ := collectOpt_cons_eq hc
    subst hrbs
    obtain ⟨hn0, hb0⟩ := write_ring_eq hw0
    rw [List.flatten_cons, List.append_assoc, hb0, List.append_assoc] at h
    have hokr := hok r (by simp)
    obtain ⟨htry, hsize, hmat⟩ :=
      ring_parse_layout h hokr
    have hrb0len : rb0.length = 4 + dim.size * 8 * r.length := by
      rw [hb0, List.length_append, u32Bytes_length, coords_bytes_length hokr.2]
    have haligned : buf.drop pos =
        (u32Bytes bo r.length ++ (r.map (write_coord bo)).flatten) ++
          (rbt.flatten ++ rest) := by
      rw [h, List.append_assoc]
    have hnext : buf.drop (pos + (4 + dim.size * 8 * r.length)) =
        rbt.flatten ++ rest := by
      refine drop_shift haligned _ ?_
      rw [List.length_append, u32Bytes_length, coords_bytes_length hokr.2]
    obtain ⟨rs, hprs, hsum, hcol⟩ :=
      ih rbt rest (pos + (4 + dim.size * 8 * r.length)) hct hnext
        (fun x hx => hok x (by simp [hx]))
    refine ⟨⟨buf, bo, pos, r.length, dim⟩ :: rs, ?_, ?_, ?_⟩
    · rw [List.length_cons, parseRings, htry]
      show (match parseRings buf bo dim rt.length
        (pos + (4 + dim.size * 8 * r.length)) with
        | .ok rs => _ | .error e => _ | .panic => _) = _
      rw [hprs]
    · rw [List.map_cons, List.sum_cons, List.flatten_cons, List.length_append,
        hsum, hrb0len]
      show 4 + dim.size * 8 * r.length + _ = _
      omega
    · rw [List.map_cons, Outcome.collect_cons, hmat]
      show (Outcome.collect (rs.map materializeRing)).map (r :: ·) = _
      rw [hcol]
      rfl

theorem write_polygon_eq {bo : Endianness} {dim : Dimension}
    {rings : List (List OCoord)} {bs : List Nat}
    (h : write_polygon bo dim rings = some bs) :
    rings.length < 4294967296 ∧
      ∃ rbs, collectOpt (rings.map (write_ring bo)) = some rbs ∧
        bs = Endianness.toByte bo :: u32Bytes bo (WkbType.polygon dim).code ++
          (u32Bytes bo rings.length ++ rbs.flatten) := by
  rw [write_polygon] at h
  by_cases hn : rings.length < 4294967296
  · rw [if_pos hn] at h
    refine ⟨hn, ?_⟩
    cases hc : collectOpt (rings.map (write_ring bo)) with
    | none => rw [hc] at h; simp [Option.map] at h
    | some rbs =>
      rw [hc] at h
      simp only [Option.map] at h
      injection h with h2
      exact ⟨rbs, rfl, by rw [← h2]; simp⟩
  · rw [if_neg hn] at h
    cases h

/-- Parsing a written polygon succeeds, consumes exactly the written
bytes, and materializes back to the original rings. -/
theorem polygon_parse_layout {buf rest bs : List Nat} {pos : Nat}
    {bo : Endianness} {dim : Dimension} {rings : List (List OCoord)}
    (henc : write_polygon bo dim rings = some bs)
    (h : buf.drop pos = bs ++ rest)
    (hok : ∀ r ∈ rings, OkRing dim r) :
    ∃ p : Polygon, Polygon.try_new buf bo pos dim = .ok p ∧
      p.size = bs.length ∧
      materializePolygon p = .ok rings := by
  obtain ⟨hn, rbs, hcoll, hbs⟩ := write_polygon_eq henc
  rw [hbs] at h
  rw [show (Endianness.toByte bo :: u32Bytes bo (WkbType.polygon dim).code ++
      (u32Bytes bo rings.length ++ rbs.flatten)) ++ rest =
      Endianness.toByte bo :: u32Bytes bo (WkbType.polygon dim).code ++
      (u32Bytes bo rings.length ++ (rbs.flatten ++ rest)) by simp] at h
  have hcode := WkbType.code_le (.polygon dim)
  have hs : hasSrid buf bo pos = .ok false := hasSrid_layout h (by omega)
  have hcnt : buf.drop (pos + 5) =
      u32Bytes bo rings.length ++ (rbs.flatten ++ rest) := by
    refine drop_shift h 5 ?_
    simp [u32Bytes_length]
  have hread : readU32 bo buf (5 + pos) = some rings.length := by
    rw [Nat.add_comm 5 pos]
    exact readU32_layout bo hcnt hn
  have hrings : buf.drop (pos + 9) = rbs.flatten ++ rest :=
    drop_shift hcnt 4 (u32Bytes_length bo rings.length).symm
  obtain ⟨rs, hprs, hsum, hcol⟩ :=
    rings_parse_layout rings rbs rest (pos + 9) hcoll hrings hok
  refine ⟨⟨rs, dim, false⟩, ?_, ?_, ?_⟩
  · rw [Polygon.try_new]
    simp only [hs, Bool.false_eq_true, reduceIte, Nat.add_zero, hread]
    rw [show pos + 1 + 4 + 4 = pos + 9 by omega, hprs]
    rfl
  · show 1 + 4 + 4 + (if false then 4 else 0) + (rs.map LinearRing.size).sum =
      bs.length
    rw [hsum, hbs]
    simp only [List.length_cons, List.length_append, u32Bytes_length,
      Bool.false_eq_true, if_false]
    omega
  · exact hcol

theorem write_multi_point_eq {bo : Endianness} {dim : Dimension}
    {cs : List (Option OCoord)} {bs : List Nat}
    (h : write_multi_point bo dim cs = some bs) :
    cs.length < 4294967296 ∧
      bs = Endianness.toByte bo :: u32Bytes bo (WkbType.multiPoint dim).code ++
        (u32Bytes bo cs.length ++ (cs.map (write_point bo dim)).flatten) := by
  rw [write_multi_point] at h
  by_cases hn : cs.length < 4294967296
  · rw [if_pos hn] at h
    injection h with h2
    exact ⟨hn, by rw [← h2]; simp⟩
  · rw [if_neg hn] at h
    cases h

theorem points_flat_length {bo : Endianness} {dim : Dimension}
    {cs : List (Option OCoord)} (hok : ∀ co ∈ cs, OkPointCoord dim co) :
    ((cs.map (write_point bo dim)).flatten).length =
      (1 + 4 + dim.size * 8) * cs.length := by
  induction cs with
  | nil => simp
  | cons co t ih =>
    rw [List.map_cons, List.flatten_cons, List.length_append,
      write_point_length bo dim co (hok co (by simp)),
      ih (fun x hx => hok x (by simp [hx])), List.length_cons, Nat.mul_succ]
    ring

/-- Materializing the written children of a multi-point, from index `i`
onward. -/
theorem points_materialize_layout {buf rest : List Nat} {bo : Endianness}
    {dim : Dimension} {m : MultiPoint}
    (hm : m.buf = buf) (hbo : m.byte_order = bo) (hdim : m.dim = dim)
    (hsrid : m.has_srid = false) :
    ∀ (tail : List (Option OCoord)) (i : Nat),
      buf.drop (9 + (1 + 4 + dim.size * 8) * i) =
        (tail.map (write_point bo dim)).flatten ++ rest →
      (∀ co ∈ tail, OkPointCoord dim co) →
      materializePoints m tail.length i = .ok tail := by
  intro tail
  induction tail with
  | nil => intro i _ _; rw [List.length_nil, materializePoints]
  | cons co t ih =>
    intro i h hok
    rw [List.map_cons, List.flatten_cons, List.append_assoc] at h
    have hoff : m.point_offset i = 9 + (1 + 4 + dim.size * 8) * i := by
      rw [MultiPoint.point_offset, hsrid, hdim]
      simp
    obtain ⟨p, htry, hpsz, hpmat⟩ :=
      point_parse_layout h (hok co (by simp))
    have hnext : buf.drop (9 + (1 + 4 + dim.size * 8) * (i + 1)) =
        (t.map (write_point bo dim)).flatten ++ rest := by
      have hstep := drop_shift h (5 + dim.size * 8)
        (by rw [write_point_length bo dim co (hok co (by simp))])
      rw [show 9 + (1 + 4 + dim.size * 8) * (i + 1) =
        9 + (1 + 4 + dim.size * 8) * i + (5 + dim.size * 8) by
          rw [Nat.mul_succ]; omega]
      exact hstep
    rw [List.length_cons, materializePoints]
    rw [show m.point_unchecked i = Point.new buf bo (9 + (1 + 4 + dim.size * 8) * i) dim by
      rw [MultiPoint.point_unchecked, hm, hbo, hdim, hoff]]
    rw [Point.new, htry]
    show (match materializePoint p with | .ok c => _ | .error e => _ | .panic => _) = _
    rw [hpmat, ih (i + 1) hnext (fun x hx => hok x (by simp [hx]))]
    rfl

/-- Parsing a written multi-point succeeds, consumes exactly the written
bytes, and materializes back to the original points. -/
theorem multi_point_parse_layout {buf rest bs : List Nat} {bo : Endianness}
    {dim : Dimension} {cs : List (Option OCoord)}
    (henc : write_multi_point bo dim cs = some bs)
    (h : buf = bs ++ rest)
    (hok : ∀ co ∈ cs, OkPointCoord dim co) :
    ∃ m : MultiPoint, MultiPoint.try_new buf bo dim = .ok m ∧
      m.size = bs.length ∧
      materializeMultiPoint m = .ok cs := by
  obtain ⟨hn, hbs⟩ := write_multi_point_eq henc
  rw [hbs] at h
  have h0 : buf.drop 0 =
      Endianness.toByte bo :: u32Bytes bo (WkbType.multiPoint dim).code ++
        (u32Bytes bo cs.length ++ ((cs.map (write_point bo dim)).flatten ++ rest)) := by
    rw [List.drop_zero, h]
    simp
  have hcode := WkbType.code_le (.multiPoint dim)
  have hs : hasSrid buf bo 0 = .ok false := hasSrid_layout h0 (by omega)
  have hcnt : buf.drop 5 =
      u32Bytes bo cs.length ++ ((cs.map (write_point bo dim)).flatten ++ rest) := by
    have := drop_shift h0 5 (by simp [u32Bytes_length])
    simpa using this
  have hread : readU32 bo buf 5 = some cs.length := readU32_layout bo hcnt hn
  have hpts : buf.drop 9 = (cs.map (write_point bo dim)).flatten ++ rest := by
    have := drop_shift hcnt 4 (u32Bytes_length bo cs.length).symm
    simpa using this
  have hlen : 9 + (1 + 4 + dim.size * 8) * cs.length ≤ buf.length := by
    rw [h]
    simp only [List.length_append, List.length_cons, u32Bytes_length,
      points_flat_length hok]
    omega
  refine ⟨⟨buf, bo, cs.length, dim, false⟩, ?_, ?_, ?_⟩
  · rw [MultiPoint.try_new]
    simp only [hs, Bool.false_eq_true, reduceIte, Nat.add_zero, hread]
    rw [if_neg ?_]
    show ¬ (MultiPoint.point_offset _ cs.length > buf.length)
    show ¬ (1 + 4 + 4 + (if false then 4 else 0) +
      (1 + 4 + dim.size * 8) * cs.length > buf.length)
    simp only [Bool.false_eq_true, if_false]
    omega
  · show MultiPoint.point_offset _ cs.length = bs.length
    show 1 + 4 + 4 + (if false then 4 else 0) +
      (1 + 4 + dim.size * 8) * cs.length = bs.length
    rw [hbs]
    simp only [Bool.false_eq_true, if_false, List.length_cons,
      List.length_append, u32Bytes_length, points_flat_length hok]
    omega
  · rw [materializeMultiPoint]
    show materializePoints _ cs.length 0 = _
    have hdrop9 : buf.drop (9 + (1 + 4 + dim.size * 8) * 0) =
        (cs.map (write_point bo dim)).flatten ++ rest := by
      simpa using hpts
    exact points_materialize_layout rfl rfl rfl rfl cs 0 hdrop9 hok

theorem write_multi_line_string_eq {bo : Endianness} {dim : Dimension}
    {lss : List (List OCoord)} {bs : List Nat}
    (h : write_multi_line_string bo dim lss = some bs) :
    lss.length < 4294967296 ∧
      ∃ cbs, collectOpt (lss.map (write_line_string bo dim)) = some cbs ∧
        bs = Endianness.toByte bo ::
          u32Bytes bo (WkbType.multiLineString dim).code ++
          (u32Bytes bo lss.length ++ cbs.flatten) := by
  rw [write_multi_line_string] at h
  by_cases hn : lss.length < 4294967296
  · rw [if_pos hn] at h
    refine ⟨hn, ?_⟩
    cases hc : collectOpt (lss.map (write_line_string bo dim)) with
    | none => rw [hc] at h; simp [Option.map] at h
    | some cbs =>
      rw [hc] at h
      simp only [Option.map] at h
      injection h with h2
      exact ⟨cbs, rfl, by rw [← h2]; simp⟩
  · rw [if_neg hn] at h
    cases h

theorem write_multi_polygon_eq {bo : Endianness} {dim : Dimension}
    {ps : List (List (List OCoord))} {bs : List Nat}
    (h : write_multi_polygon bo dim ps = some bs) :
    ps.length < 4294967296 ∧
      ∃ cbs, collectOpt (ps.map (write_polygon bo dim)) = some cbs ∧
        bs = Endianness.toByte bo ::
          u32Bytes bo (WkbType.multiPolygon dim).code ++
          (u32Bytes bo ps.length ++ cbs.flatten) := by
  rw [write_multi_polygon] at h
  by_cases hn : ps.length < 4294967296
  · rw [if_pos hn] at h
    refine ⟨hn, ?_⟩
    cases hc : collectOpt (ps.map (write_polygon bo dim)) with
    | none => rw [hc] at h; simp [Option.map] at h
    | some cbs =>
      rw [hc] at h
      simp only [Option.map] at h
      injection h with h2
      exact ⟨cbs, rfl, by rw [← h2]; simp⟩
  · rw [if_neg hn] at h
    cases h

/-- Parsing the written children of a multi-line-string back-to-back. -/
theorem line_strings_parse_layout {buf : List Nat} {bo : Endianness}
    {dim : Dimension} :
    ∀ (lss : List (List OCoord)) (cbs : List (List Nat)) (rest : List Nat)
      (pos : Nat),
      collectOpt (lss.map (write_line_string bo dim)) = some cbs →
      buf.drop pos = cbs.flatten ++ rest →
      (∀ ls ∈ lss, ∀ c ∈ ls, OkCoord dim c) →
      ∃ lvs : List LineString,
        parseLineStrings buf bo dim lss.length pos = .ok lvs ∧
        (lvs.map LineString.size).sum = cbs.flatten.length ∧
        Outcome.collect (lvs.map materializeLineString) = .ok lss := by
  intro lss
  induction lss with
  | nil =>
    intro cbs rest pos hc h hok
    rw [List.map_nil] at hc
    injection hc with hc2
    subst hc2
    exact ⟨[], by rw [List.length_nil, parseLineStrings], by simp,
      by simp [Outcome.collect]⟩
  | cons ls lt ih =>
    intro cbs rest pos hc h hok
    rw [List.map_cons] at hc
    obtain ⟨cb0, cbt, hw0, hct, hcbs⟩ := collectOpt_cons_eq hc
    subst hcbs
    rw [List.flatten_cons, List.append_assoc] at h
    have hokl := hok ls (by simp)
    obtain ⟨htry, hblen, hmat⟩ :=
      line_string_parse_layout hw0 h hokl
    have hsz : LineString.size ⟨buf, bo, ls.length, pos, dim, false⟩ =
        cb0.length := by
      show 1 + 4 + 4 + (if false then 4 else 0) + dim.size * 8 * ls.length = _
      rw [hblen]
      simp
    have hnext : buf.drop (pos + cb0.length) = cbt.flatten ++ rest := by
      have haligned : buf.drop pos = cb0 ++ (cbt.flatten ++ rest) := h
      exact drop_shift haligned _ rfl
    obtain ⟨lvs, hprs, hsum, hcol⟩ :=
      ih cbt rest (pos + cb0.length) hct hnext
        (fun x hx => hok x (by simp [hx]))
    refine ⟨⟨buf, bo, ls.length, pos, dim, false⟩ :: lvs, ?_, ?_, ?_⟩
    · rw [List.length_cons, parseLineStrings, htry]
      show (match parseLineStrings buf bo dim lt.length
        (pos + LineString.size ⟨buf, bo, ls.length, pos, dim, false⟩) with
        | .ok ls => _ | .error e => _ | .panic => _) = _
      rw [hsz, hprs]
    · rw [List.map_cons, List.sum_cons, List.flatten_cons, List.length_append,
        hsum, hsz]
    · rw [List.map_cons, Outcome.collect_cons, hmat]
      show (Outcome.collect (lvs.map materializeLineString)).map (ls :: ·) = _
      rw [hcol]
      rfl

/-- Parsing the written children of a multi-polygon back-to-back. -/
theorem polygons_parse_layout {buf : List Nat} {bo : Endianness}
    {dim : Dimension} :
    ∀ (pss : List (List (List OCoord))) (cbs : List (List Nat))
      (rest : List Nat) (pos : Nat),
      collectOpt (pss.map (write_polygon bo dim)) = some cbs →
      buf.drop pos = cbs.flatten ++ rest →
      (∀ p ∈ pss, ∀ r ∈ p, OkRing dim r) →
      ∃ pvs : List Polygon,
        parsePolygons buf bo dim pss.length pos = .ok pvs ∧
        (pvs.map Polygon.size).sum = cbs.flatten.length ∧
        Outcome.collect (pvs.map materializePolygon) = .ok pss := by
  intro pss
  induction pss with
  | nil =>
    intro cbs rest pos hc h hok
    rw [List.map_nil] at hc
    injection hc with hc2
    subst hc2
    exact ⟨[], by rw [List.length_nil, parsePolygons], by simp,
      by simp [Outcome.collect]⟩
  | cons p pt ih =>
    intro cbs rest pos hc h hok
    rw [List.map_cons] at hc
    obtain ⟨cb0, cbt, hw0, hct, hcbs⟩ := collectOpt_cons_eq hc
    subst hcbs
    rw [List.flatten_cons, List.append_assoc] at h
    obtain ⟨pv, htry, hpsz, hmat⟩ :=
      polygon_parse_layout hw0 h (hok p (by simp))
    have hnext : buf.drop (pos + cb0.length) = cbt.flatten ++ rest :=
      drop_shift h _ rfl
    obtain ⟨pvs, hprs, hsum, hcol⟩ :=
      ih cbt rest (pos + cb0.length) hct hnext
        (fun x hx => hok x (by simp [hx]))
    refine ⟨pv :: pvs, ?_, ?_, ?_⟩
    · rw [List.length_cons, parsePolygons, htry]
      show (match parsePolygons buf bo dim pt.length (pos + pv.size) with
        | .ok ps => _ | .error e => _ | .panic => _) = _
      rw [hpsz, hprs]
    · rw [List.map_cons, List.sum_cons, List.flatten_cons, List.length_append,
        hsum, hpsz]
    · rw [List.map_cons, Outcome.collect_cons, hmat]
      show (Outcome.collect (pvs.map materializePolygon)).map (p :: ·) = _
      rw [hcol]
      rfl

/-- Parsing a written multi-line-string succeeds, consumes exactly the
written bytes, and materializes back to the original line strings. -/
theorem multi_line_string_parse_layout {buf rest bs : List Nat}
    {bo : Endianness} {dim : Dimension} {lss : List (List OCoord)}
    (henc : write_multi_line_string bo dim lss = some bs)
    (h : buf = bs ++ rest)
    (hok : ∀ ls ∈ lss, ∀ c ∈ ls, OkCoord dim c) :
    ∃ m : MultiLineString, MultiLineString.try_new buf bo dim = .ok m ∧
      m.size = bs.length ∧
      Outcome.collect (m.wkb_line_strings.map materializeLineString) =
        .ok lss := by
  obtain ⟨hn, cbs, hcoll, hbs⟩ := write_multi_line_string_eq henc
  rw [hbs] at h
  have h0 : buf.drop 0 =
      Endianness.toByte bo :: u32Bytes bo (WkbType.multiLineString dim).code ++
        (u32Bytes bo lss.length ++ (cbs.flatten ++ rest)) := by
    rw [List.drop_zero, h]
    simp
  have hcode := WkbType.code_le (.multiLineString dim)
  have hs : hasSrid buf bo 0 = .ok false := hasSrid_layout h0 (by omega)
  have hcnt : buf.drop 5 =
      u32Bytes bo lss.length ++ (cbs.flatten ++ rest) := by
    have := drop_shift h0 5 (by simp [u32Bytes_length])
    simpa using this
  have hread : readU32 bo buf 5 = some lss.length := readU32_layout bo hcnt hn
  have hch : buf.drop 9 = cbs.flatten ++ rest := by
    have := drop_shift hcnt 4 (u32Bytes_length bo lss.length).symm
    simpa using this
  obtain ⟨lvs, hprs, hsum, hcol⟩ :=
    line_strings_parse_layout lss cbs rest 9 hcoll hch hok
  refine ⟨⟨lvs, dim, false⟩, ?_, ?_, ?_⟩
  · rw [MultiLineString.try_new]
    simp only [hs, Bool.false_eq_true, reduceIte, Nat.add_zero, hread]
    rw [show (1 : Nat) + 4 + 4 = 9 by omega, hprs]
    rfl
  · show 1 + 4 + 4 + (if false then 4 else 0) + (lvs.map LineString.size).sum =
      bs.length
    rw [hsum, hbs]
    simp only [Bool.false_eq_true, if_false, List.length_cons,
      List.length_append, u32Bytes_length]
    omega
  · exact hcol

/-- Parsing a written multi-polygon succeeds, consumes exactly the
written bytes, and materializes back to the original polygons. -/
theorem multi_polygon_parse_layout {buf rest bs : List Nat}
    {bo : Endianness} {dim : Dimension} {pss : List (List (List OCoord))}
    (henc : write_multi_polygon bo dim pss = some bs)
    (h : buf = bs ++ rest)
    (hok : ∀ p ∈ pss, ∀ r ∈ p, OkRing dim r) :
    ∃ m : MultiPolygon, MultiPolygon.try_new buf bo dim = .ok m ∧
      m.size = bs.length ∧
      Outcome.collect (m.wkb_polygons.map materializePolygon) = .ok pss := by
  obtain ⟨hn, cbs, hcoll, hbs⟩ := write_multi_polygon_eq henc
  rw [hbs] at h
  have h0 : buf.drop 0 =
      Endianness.toByte bo :: u32Bytes bo (WkbType.multiPolygon dim).code ++
        (u32Bytes bo pss.length ++ (cbs.flatten ++ rest)) := by
    rw [List.drop_zero, h]
    simp
  have hcode := WkbType.code_le (.multiPolygon dim)
  have hs : hasSrid buf bo 0 = .ok false := hasSrid_layout h0 (by omega)
  have hcnt : buf.drop 5 =
      u32Bytes bo pss.length ++ (cbs.flatten ++ rest) := by
    have := drop_shift h0 5 (by simp [u32Bytes_length])
    simpa using this
  have hread : readU32 bo buf 5 = some pss.length := readU32_layout bo hcnt hn
  have hch : buf.drop 9 = cbs.flatten ++ rest := by
    have := drop_shift hcnt 4 (u32Bytes_length bo pss.length).symm
    simpa using this
  obtain ⟨pvs, hprs, hsum, hcol⟩ :=
    polygons_parse_layout pss cbs rest 9 hcoll hch hok
  refine ⟨⟨pvs, dim, false⟩, ?_, ?_, ?_⟩
  · rw [MultiPolygon.try_new]
    simp only [hs, Bool.false_eq_true, reduceIte, Nat.add_zero, hread]
    rw [show (1 : Nat) + 4 + 4 = 9 by omega, hprs]
    rfl
  · show 1 + 4 + 4 + (if false then 4 else 0) + (pvs.map Polygon.size).sum =
      bs.length
    rw [hsum, hbs]
    simp only [Bool.false_eq_true, if_false, List.length_cons,
      List.length_append, u32Bytes_length]
    omega
  · exact hcol

/-- Unfold the header handling of the top-level parse on a buffer that
starts with a written marker and type code: the parse reduces to the
dispatch on the decoded type. -/
theorem parseWkb_step {bs body : List Nat} {bo : Endianness}
    {t : WkbType} (fuel : Nat) (suffix : List Nat)
    (hbs : bs = Endianness.toByte bo :: u32Bytes bo t.code ++ body) :
    parseWkb (fuel + 1) (bs ++ suffix) =
      match t with
      | .point dim => (Point.try_new (bs ++ suffix) bo 0 dim).map Wkb.point
      | .lineString dim =>
          (LineString.try_new (bs ++ suffix) bo 0 dim).map Wkb.lineString
      | .polygon dim => (Polygon.try_new (bs ++ suffix) bo 0 dim).map Wkb.polygon
      | .multiPoint dim =>
          (MultiPoint.try_new (bs ++ suffix) bo dim).map Wkb.multiPoint
      | .multiLineString dim =>
          (MultiLineString.try_new (bs ++ suffix) bo dim).map Wkb.multiLineString
      | .multiPolygon dim =>
          (MultiPolygon.try_new (bs ++ suffix) bo dim).map Wkb.multiPolygon
      | .geometryCollection dim =>
          GeometryCollection.try_new (parseWkb fuel) (bs ++ suffix) bo dim := by
  have hr8 : readU8 (bs ++ suffix) 0 = some bo.toByte := by
    rw [hbs]
    simp [readU8]
  have hlay : bs ++ suffix =
      Endianness.toByte bo :: u32Bytes bo t.code ++ (body ++ suffix) := by
    rw [hbs]
    simp
  have hfb : WkbType.from_buffer (bs ++ suffix) = .ok t := by
    rw [from_buffer_layout hlay (by have := WkbType.code_le t; omega),
      getType_code]
  rw [parseWkb, hr8]
  show (match endiannessOfByte bo.toByte with
    | none => Outcome.error .invalidByteOrder
    | some bo => _) = _
  rw [Endianness.ofByte_toByte]
  show (match WkbType.from_buffer (bs ++ suffix) with
    | .error e => Outcome.error e | .panic => .panic | .ok t => _) = _
  rw [hfb]
  cases t <;> rfl

mutual

/-- Round trip of a single well-formed geometry through the writer and
the reader: the parse of the written bytes (with any trailing suffix)
succeeds, reports exactly the written length as its size, and
materializes back to the original geometry. -/
theorem write_geometry_rt :
    ∀ (g : OGeometry) (bo : Endianness) (dim : Dimension) (bs : List Nat),
      WF dim g → write_geometry bo dim g = some bs →
      ∀ (suffix : List Nat) (fuel : Nat), bs.length ≤ fuel →
      ∃ w : Wkb, parseWkb (fuel + 1) (bs ++ suffix) = .ok w ∧
        w.size = bs.length ∧ materializeWkb w = .ok g := by
  intro g bo dim bs hwf henc suffix fuel hfuel
  match g with
  | .point co =>
    have hco : OkPointCoord dim co := by cases hwf with | point hco => exact hco
    rw [write_geometry] at henc
    injection henc with h2
    have hbs : bs = write_point bo dim co := h2.symm
    have hstep := parseWkb_step fuel suffix
      (hbs.trans (write_point_body bo dim co))
    have hdrop0 : (bs ++ suffix).drop 0 = write_point bo dim co ++ suffix := by
      rw [List.drop_zero, hbs]
    obtain ⟨p, htry, hsz, hmat⟩ := point_parse_layout hdrop0 hco
    refine ⟨.point p, ?_, ?_, ?_⟩
    · rw [hstep]
      show (Point.try_new (bs ++ suffix) bo 0 dim).map Wkb.point = _
      rw [htry]
      rfl
    · show p.size = bs.length
      rw [hsz, hbs, write_point_length bo dim co hco]
      omega
    · show (materializePoint p).map OGeometry.point = _
      rw [hmat]
      rfl
  | .lineString cs =>
    have hcs : OkRing dim cs := by cases hwf with | lineString hcs => exact hcs
    rw [write_geometry] at henc
    obtain ⟨hn, hbs⟩ := write_line_string_eq henc
    have hstep := parseWkb_step fuel suffix hbs
    have hdrop0 : (bs ++ suffix).drop 0 = bs ++ suffix := by
      rw [List.drop_zero]
    obtain ⟨htry, hblen, hmat⟩ := line_string_parse_layout henc hdrop0 hcs.2
    refine ⟨.lineString ⟨bs ++ suffix, bo, cs.length, 0, dim, false⟩, ?_, ?_, ?_⟩
    · rw [hstep]
      show (LineString.try_new (bs ++ suffix) bo 0 dim).map Wkb.lineString = _
      rw [htry]
      rfl
    · show 1 + 4 + 4 + (if false then 4 else 0) + dim.size * 8 * cs.length =
        bs.length
      rw [hblen]
      simp
    · show (materializeLineString _).map OGeometry.lineString = _
      rw [hmat]
      rfl
  | .polygon rs =>
    have hrs : OkPoly dim rs := by cases hwf with | polygon hrs => exact hrs
    rw [write_geometry] at henc
    obtain ⟨hn, rbs, hcoll, hbs⟩ := write_polygon_eq henc
    have hstep := parseWkb_step fuel suffix hbs
    have hdrop0 : (bs ++ suffix).drop 0 = bs ++ suffix := by
      rw [List.drop_zero]
    obtain ⟨p, htry, hsz, hmat⟩ := polygon_parse_layout henc hdrop0 hrs.2
    refine ⟨.polygon p, ?_, ?_, ?_⟩
    · rw [hstep]
      show (Polygon.try_new (bs ++ suffix) bo 0 dim).map Wkb.polygon = _
      rw [htry]
      rfl
    · exact hsz
    · show (materializePolygon p).map OGeometry.polygon = _
      rw [hmat]
      rfl
  | .multiPoint cs =>
    have hcs : ∀ co ∈ cs, OkPointCoord dim co := by
      cases hwf with | multiPoint hn hcs => exact hcs
    rw [write_geometry] at henc
    obtain ⟨hn, hbs⟩ := write_multi_point_eq henc
    have hstep := parseWkb_step fuel suffix hbs
    obtain ⟨m, htry, hsz, hmat⟩ := multi_point_parse_layout
      henc (rfl : bs ++ suffix = bs ++ suffix) hcs
    refine ⟨.multiPoint m, ?_, ?_, ?_⟩
    · rw [hstep]
      show (MultiPoint.try_new (bs ++ suffix) bo dim).map Wkb.multiPoint = _
      rw [htry]
      rfl
    · exact hsz
    · show (materializeMultiPoint m).map OGeometry.multiPoint = _
      rw [hmat]
      rfl
  | .multiLineString lss =>
    have hls : ∀ ls ∈ lss, OkRing dim ls := by
      cases hwf with | multiLineString hn hls => exact hls
    rw [write_geometry] at henc
    obtain ⟨hn, cbs, hcoll, hbs⟩ := write_multi_line_string_eq henc
    have hstep := parseWkb_step fuel suffix hbs
    obtain ⟨m, htry, hsz, hmat⟩ := multi_line_string_parse_layout
      henc (rfl : bs ++ suffix = bs ++ suffix) (fun ls hl => (hls ls hl).2)
    refine ⟨.multiLineString m, ?_, ?_, ?_⟩
    · rw [hstep]
      show (MultiLineString.try_new (bs ++ suffix) bo dim).map
        Wkb.multiLineString = _
      rw [htry]
      rfl
    · exact hsz
    · show (Outcome.collect (m.wkb_line_strings.map materializeLineString)).map
        OGeometry.multiLineString = _
      rw [hmat]
      rfl
  | .multiPolygon pss =>
    have hps : ∀ p ∈ pss, OkPoly dim p := by
      cases hwf with | multiPolygon hn hps => exact hps
    rw [write_geometry] at henc
    obtain ⟨hn, cbs, hcoll, hbs⟩ := write_multi_polygon_eq henc
    have hstep := parseWkb_step fuel suffix hbs
    obtain ⟨m, htry, hsz, hmat⟩ := multi_polygon_parse_layout
      henc (rfl : bs ++ suffix = bs ++ suffix) (fun p hp => (hps p hp).2)
    refine ⟨.multiPolygon m, ?_, ?_, ?_⟩
    · rw [hstep]
      show (MultiPolygon.try_new (bs ++ suffix) bo dim).map Wkb.multiPolygon = _
      rw [htry]
      rfl
    · exact hsz
    · show (Outcome.collect (m.wkb_polygons.map materializePolygon)).map
        OGeometry.multiPolygon = _
      rw [hmat]
      rfl
  | .geometryCollection gs =>
    have hgs : ∀ g ∈ gs, WF dim g := by
      cases hwf with | geometryCollection hn hgs => exact hgs
    have hn : gs.length < 4294967296 := by
      cases hwf with | geometryCollection hn hgs => exact hn
    rw [write_geometry, if_pos hn] at henc
    cases hbss : write_geometry_list bo dim gs with
    | none => rw [hbss] at henc; simp [Option.map] at henc
    | some bss =>
      rw [hbss] at henc
      simp only [Option.map] at henc
      injection henc with h2
      have hbs : bs = Endianness.toByte bo ::
          u32Bytes bo (WkbType.geometryCollection dim).code ++
          (u32Bytes bo gs.length ++ bss.flatten) := by
        rw [← h2]
        simp
      have hstep := parseWkb_step (t := .geometryCollection dim)
        fuel suffix hbs
      have h0 : (bs ++ suffix).drop 0 = Endianness.toByte bo ::
          u32Bytes bo (WkbType.geometryCollection dim).code ++
          (u32Bytes bo gs.length ++ (bss.flatten ++ suffix)) := by
        rw [List.drop_zero, hbs]
        simp
      have hcode := WkbType.code_le (.geometryCollection dim)
      have hs : hasSrid (bs ++ suffix) bo 0 = .ok false :=
        hasSrid_layout h0 (by omega)
      have hcnt : (bs ++ suffix).drop 5 =
          u32Bytes bo gs.length ++ (bss.flatten ++ suffix) := by
        have := drop_shift h0 5 (by simp [u32Bytes_length])
        simpa using this
      have hread : readU32 bo (bs ++ suffix) 5 = some gs.length :=
        readU32_layout bo hcnt hn
      have hch : (bs ++ suffix).drop 9 = bss.flatten ++ suffix := by
        have := drop_shift hcnt 4 (u32Bytes_length bo gs.length).symm
        simpa using this
      have hbslen : bs.length = 9 + bss.flatten.length := by
        rw [hbs]
        simp only [List.length_cons, List.length_append, u32Bytes_length]
        omega
      have hlen : 9 + bss.flatten.length ≤ (bs ++ suffix).length := by
        rw [List.length_append]
        omega
      obtain ⟨ws, hpg, hml⟩ := write_geometry_list_rt gs bo dim bss hgs hbss
        (bs ++ suffix) 9 suffix hch (by omega) fuel (by omega)
      refine ⟨.geometryCollection ws (9 + bss.flatten.length) dim, ?_, ?_, ?_⟩
      · rw [hstep]
        show GeometryCollection.try_new (parseWkb fuel) (bs ++ suffix) bo dim = _
        rw [GeometryCollection.try_new]
        simp only [hs, Bool.false_eq_true, reduceIte, Nat.add_zero, hread]
        rw [show (5 : Nat) + 4 = 9 by omega, hpg]
        show (if 9 + bss.flatten.length > (bs ++ suffix).length
          then Outcome.panic else _) = _
        rw [if_neg (by omega)]
      · show 9 + bss.flatten.length = bs.length
        omega
      · show (materializeWkbList ws).map OGeometry.geometryCollection = _
        rw [hml]
        rfl

/-- Round trip of the children of a written geometry collection: parsing
them back-to-back consumes exactly the written bytes and materializes
back to the original children. -/
theorem write_geometry_list_rt :
    ∀ (gs : List OGeometry) (bo : Endianness) (dim : Dimension)
      (bss : List (List Nat)),
      (∀ g ∈ gs, WF dim g) → write_geometry_list bo dim gs = some bss →
      ∀ (buf : List Nat) (off : Nat) (rest : List Nat),
        buf.drop off = bss.flatten ++ rest → off ≤ buf.length →
      ∀ (fuel : Nat), bss.flatten.length < fuel →
      ∃ ws : List Wkb,
        parseGeometries (parseWkb fuel) buf gs.length off =
          .ok (ws, off + bss.flatten.length) ∧
        materializeWkbList ws = .ok gs := by
  intro gs bo dim bss hwf henc buf off rest hlay hoff fuel hfuel
  match gs with
  | [] =>
    rw [write_geometry_list] at henc
    injection henc with h2
    subst h2
    refine ⟨[], ?_, rfl⟩
    rw [List.length_nil, parseGeometries]
    simp
  | g :: gt =>
    rw [write_geometry_list] at henc
    cases hb0 : write_geometry bo dim g with
    | none => rw [hb0] at henc; cases henc
    | some b0 =>
      rw [hb0] at henc
      cases hbt : write_geometry_list bo dim gt with
      | none => rw [hbt] at henc; simp [Option.map] at henc
      | some bst =>
        rw [hbt] at henc
        simp only [Option.map] at henc
        injection henc with h2
        subst h2
        rw [List.flatten_cons, List.append_assoc] at hlay
        have hlenbuf : buf.length =
            off + (b0.length + (bst.flatten.length + rest.length)) := by
          have hl := congrArg List.length hlay
          rw [List.length_drop, List.length_append, List.length_append] at hl
          omega
        obtain ⟨fuel0, rfl⟩ : ∃ f, fuel = f + 1 := by
          refine ⟨fuel - 1, ?_⟩
          rw [List.flatten_cons, List.length_append] at hfuel
          omega
        have hfl : bst.flatten.length < fuel0 + 1 := by
          rw [List.flatten_cons, List.length_append] at hfuel
          omega
        have hb0fuel : b0.length ≤ fuel0 := by
          rw [List.flatten_cons, List.length_append] at hfuel
          omega
        obtain ⟨w, hw, hwsz, hwm⟩ := write_geometry_rt g bo dim b0
          (hwf g (by simp)) hb0 (bst.flatten ++ rest) fuel0 hb0fuel
        have hlay2 : buf.drop (off + b0.length) = bst.flatten ++ rest :=
          drop_shift hlay _ rfl
        obtain ⟨ws, hpg, hml⟩ := write_geometry_list_rt gt bo dim bst
          (fun x hx => hwf x (by simp [hx])) hbt buf (off + b0.length) rest
          hlay2 (by omega) (fuel0 + 1) hfl
        refine ⟨w :: ws, ?_, ?_⟩
        · rw [List.length_cons, parseGeometries, if_neg (by omega)]
          rw [hlay, hw]
          show (match parseGeometries (parseWkb (fuel0 + 1)) buf gt.length
            (off + w.size) with
            | .ok (gs, fin) => Outcome.ok (w :: gs, fin)
            | .error e => _ | .panic => _) = _
          rw [hwsz, hpg]
          show Outcome.ok (w :: ws, off + b0.length + bst.flatten.length) = _
          rw [List.flatten_cons, List.length_append]
          rw [show off + b0.length + bst.flatten.length =
            off + (b0.length + bst.flatten.length) by omega]
        · rw [materializeWkbList, hwm, hml]
          rfl

end

/-! ### Inversion lemmas for the parsers -/

theorem ring_try_new_ok {buf : List Nat} {bo : Endianness} {off : Nat}
    {dim : Dimension} {r : LinearRing}
    (h : LinearRing.try_new buf bo off dim = .ok r) :
    readU32 bo buf off = some r.num_points ∧
      r = ⟨buf, bo, off, r.num_points, dim⟩ ∧
      off + r.size ≤ buf.length := by
  cases hr : readU32 bo buf off with
  | none => simp [LinearRing.try_new, hr] at h
  | some np =>
    simp only [LinearRing.try_new, hr] at h
    split at h
    · simp at h
    · injection h with h2
      subst h2
      rename_i hge
      exact ⟨rfl, rfl, by omega⟩

theorem ls_try_new_ok {buf : List Nat} {bo : Endianness} {off : Nat}
    {dim : Dimension} {l : LineString}
    (h : LineString.try_new buf bo off dim = .ok l) :
    ∃ s, hasSrid buf bo off = .ok s ∧
      readU32 bo buf (5 + (off + if s then 4 else 0)) = some l.num_points ∧
      l = ⟨buf, bo, l.num_points, off + (if s then 4 else 0), dim, s⟩ ∧
      l.coord_offset l.num_points ≤ buf.length := by
  cases hsr : hasSrid buf bo off with
  | error e => simp [LineString.try_new, hsr] at h
  | panic => simp [LineString.try_new, hsr] at h
  | ok s =>
    simp only [LineString.try_new, hsr] at h
    refine ⟨s, rfl, ?_⟩
    cases s with
    | false =>
      simp only [Bool.false_eq_true, if_false, Nat.add_zero] at h ⊢
      cases hr : readU32 bo buf (5 + off) with
      | none => simp only [hr] at h; simp at h
      | some np =>
        simp only [hr] at h
        split at h
        · simp at h
        · injection h with h2
          subst h2
          rename_i hge
          exact ⟨rfl, rfl, Nat.le_of_not_lt hge⟩
    | true =>
      simp only [if_true] at h ⊢
      cases hr : readU32 bo buf (5 + (off + 4)) with
      | none => simp only [hr] at h; simp at h
      | some np =>
        simp only [hr] at h
        split at h
        · simp at h
        · injection h with h2
          subst h2
          rename_i hge
          exact ⟨rfl, rfl, Nat.le_of_not_lt hge⟩

theorem point_try_new_ok {buf : List Nat} {bo : Endianness} {base : Nat}
    {dim : Dimension} {p : Point}
    (h : Point.try_new buf bo base dim = .ok p) :
    ∃ s, hasSrid buf bo base = .ok s ∧
      p = ⟨⟨buf, bo, base + 5 + (if s then 4 else 0), dim⟩,
        base + 5 + (if s then 4 else 0) + dim.size * 8, dim,
        (List.range dim.size).all fun k =>
          match Coord.get_nth_unchecked
            ⟨buf, bo, base + 5 + (if s then 4 else 0), dim⟩ k with
          | .ok bits => isNanBits bits
          | _ => false⟩ ∧
      base + 5 + (if s then 4 else 0) + dim.size * 8 ≤ buf.length := by
  cases hsr : hasSrid buf bo base with
  | error e => simp [Point.try_new, hsr] at h
  | panic => simp [Point.try_new, hsr] at h
  | ok s =>
    simp only [Point.try_new, hsr] at h
    refine ⟨s, rfl, ?_⟩
    cases s with
    | false =>
      simp only [Bool.false_eq_true, if_false, Nat.add_zero] at h ⊢
      split at h
      · simp at h
      · injection h with h2
        subst h2
        rename_i hge
        exact ⟨rfl, Nat.le_of_not_lt hge⟩
    | true =>
      simp only [if_true] at h ⊢
      split at h
      · simp at h
      · injection h with h2
        subst h2
        rename_i hge
        exact ⟨rfl, Nat.le_of_not_lt hge⟩

theorem mp_try_new_ok {buf : List Nat} {bo : Endianness}
    {dim : Dimension} {m : MultiPoint}
    (h : MultiPoint.try_new buf bo dim = .ok m) :
    ∃ s, hasSrid buf bo 0 = .ok s ∧
      readU32 bo buf (5 + if s then 4 else 0) = some m.num_points ∧
      m = ⟨buf, bo, m.num_points, dim, s⟩ ∧
      m.size ≤ buf.length := by
  cases hsr : hasSrid buf bo 0 with
  | error e => simp [MultiPoint.try_new, hsr] at h
  | panic => simp [MultiPoint.try_new, hsr] at h
  | ok s =>
    simp only [MultiPoint.try_new, hsr] at h
    refine ⟨s, rfl, ?_⟩
    cases s with
    | false =>
      simp only [Bool.false_eq_true, if_false, Nat.add_zero] at h ⊢
      cases hr : readU32 bo buf 5 with
      | none => simp only [hr] at h; simp at h
      | some np =>
        simp only [hr] at h
        split at h
        · simp at h
        · injection h with h2
          subst h2
          rename_i hge
          exact ⟨rfl, rfl, Nat.le_of_not_lt hge⟩
    | true =>
      simp only [if_true] at h ⊢
      cases hr : readU32 bo buf (5 + 4) with
      | none => simp only [hr] at h; simp at h
      | some np =>
        simp only [hr] at h
        split at h
        · simp at h
        · injection h with h2
          subst h2
          rename_i hge
          exact ⟨rfl, rfl, Nat.le_of_not_lt hge⟩

theorem poly_try_new_ok {buf : List Nat} {bo : Endianness} {off : Nat}
    {dim : Dimension} {p : Polygon}
    (h : Polygon.try_new buf bo off dim = .ok p) :
    ∃ s nr, hasSrid buf bo off = .ok s ∧
      readU32 bo buf (5 + (off + if s then 4 else 0)) = some nr ∧
      parseRings buf bo dim nr (off + (if s then 4 else 0) + 1 + 4 + 4) =
        .ok p.wkb_linear_rings ∧
      p = ⟨p.wkb_linear_rings, dim, s⟩ := by
  cases hsr : hasSrid buf bo off with
  | error e => simp [Polygon.try_new, hsr] at h
  | panic => simp [Polygon.try_new, hsr] at h
  | ok s =>
    simp only [Polygon.try_new, hsr] at h
    refine ⟨s, ?_⟩
    cases s with
    | false =>
      simp only [Bool.false_eq_true, if_false, Nat.add_zero] at h ⊢
      cases hr : readU32 bo buf (5 + off) with
      | none => simp only [hr] at h; simp at h
      | some nr =>
        simp only [hr] at h
        cases hpr : parseRings buf bo dim nr (off + 1 + 4 + 4) with
        | error e => simp only [hpr, Outcome.map] at h; simp at h
        | panic => simp only [hpr, Outcome.map] at h; simp at h
        | ok rs =>
          simp only [hpr, Outcome.map] at h
          injection h with h2
          subst h2
          exact ⟨nr, by trivial, by trivial, hpr, rfl⟩
    | true =>
      simp only [if_true] at h ⊢
      cases hr : readU32 bo buf (5 + (off + 4)) with
      | none => simp only [hr] at h; simp at h
      | some nr =>
        simp only [hr] at h
        cases hpr : parseRings buf bo dim nr (off + 4 + 1 + 4 + 4) with
        | error e => simp only [hpr, Outcome.map] at h; simp at h
        | panic => simp only [hpr, Outcome.map] at h; simp at h
        | ok rs =>
          simp only [hpr, Outcome.map] at h
          injection h with h2
          subst h2
          exact ⟨nr, by trivial, by trivial, hpr, rfl⟩

theorem mls_try_new_ok {buf : List Nat} {bo : Endianness}
    {dim : Dimension} {m : MultiLineString}
    (h : MultiLineString.try_new buf bo dim = .ok m) :
    ∃ s n, hasSrid buf bo 0 = .ok s ∧
      readU32 bo buf (5 + if s then 4 else 0) = some n ∧
      parseLineStrings buf bo dim n (1 + 4 + 4 + if s then 4 else 0) =
        .ok m.wkb_line_strings ∧
      m = ⟨m.wkb_line_strings, dim, s⟩ := by
  cases hsr : hasSrid buf bo 0 with
  | error e => simp [MultiLineString.try_new, hsr] at h
  | panic => simp [MultiLineString.try_new, hsr] at h
  | ok s =>
    simp only [MultiLineString.try_new, hsr] at h
    refine ⟨s, ?_⟩
    cases s with
    | false =>
      simp only [Bool.false_eq_true, if_false, Nat.add_zero] at h ⊢
      cases hr : readU32 bo buf 5 with
      | none => simp only [hr] at h; simp at h
      | some n =>
        simp only [hr] at h
        cases hps : parseLineStrings buf bo dim n (1 + 4 + 4) with
        | error e => simp only [hps, Outcome.map] at h; simp at h
        | panic => simp only [hps, Outcome.map] at h; simp at h
        | ok lvs =>
          simp only [hps, Outcome.map] at h
          injection h with h2
          subst h2
          exact ⟨n, by trivial, by trivial, hps, rfl⟩
    | true =>
      simp only [if_true] at h ⊢
      cases hr : readU32 bo buf (5 + 4) with
      | none => simp only [hr] at h; simp at h
      | some n =>
        simp only [hr] at h
        cases hps : parseLineStrings buf bo dim n (1 + 4 + 4 + 4) with
        | error e => simp only [hps, Outcome.map] at h; simp at h
        | panic => simp only [hps, Outcome.map] at h; simp at h
        | ok lvs =>
          simp only [hps, Outcome.map] at h
          injection h with h2
          subst h2
          exact ⟨n, by trivial, by trivial, hps, rfl⟩

theorem mpoly_try_new_ok {buf : List Nat} {bo : Endianness}
    {dim : Dimension} {m : MultiPolygon}
    (h : MultiPolygon.try_new buf bo dim = .ok m) :
    ∃ s n, hasSrid buf bo 0 = .ok s ∧
      readU32 bo buf (5 + if s then 4 else 0) = some n ∧
      parsePolygons buf bo dim n (1 + 4 + 4 + if s then 4 else 0) =
        .ok m.wkb_polygons ∧
      m = ⟨m.wkb_polygons, dim, s⟩ := by
  cases hsr : hasSrid buf bo 0 with
  | error e => simp [MultiPolygon.try_new, hsr] at h
  | panic => simp [MultiPolygon.try_new, hsr] at h
  | ok s =>
    simp only [MultiPolygon.try_new, hsr] at h
    refine ⟨s, ?_⟩
    cases s with
    | false =>
      simp only [Bool.false_eq_true, if_false, Nat.add_zero] at h ⊢
      cases hr : readU32 bo buf 5 with
      | none => simp only [hr] at h; simp at h
      | some n =>
        simp only [hr] at h
        cases hps : parsePolygons buf bo dim n (1 + 4 + 4) with
        | error e => simp only [hps, Outcome.map] at h; simp at h
        | panic => simp only [hps, Outcome.map] at h; simp at h
        | ok pvs =>
          simp only [hps, Outcome.map] at h
          injection h with h2
          subst h2
          exact ⟨n, by trivial, by trivial, hps, rfl⟩
    | true =>
      simp only [if_true] at h ⊢
      cases hr : readU32 bo buf (5 + 4) with
      | none => simp only [hr] at h; simp at h
      | some n =>
        simp only [hr] at h
        cases hps : parsePolygons buf bo dim n (1 + 4 + 4 + 4) with
        | error e => simp only [hps, Outcome.map] at h; simp at h
        | panic => simp only [hps, Outcome.map] at h; simp at h
        | ok pvs =>
          simp only [hps, Outcome.map] at h
          injection h with h2
          subst h2
          exact ⟨n, by trivial, by trivial, hps, rfl⟩

theorem gc_try_new_ok {p : List Nat → Outcome Wkb}
    {buf : List Nat} {bo : Endianness} {dim : Dimension} {w : Wkb}
    (h : GeometryCollection.try_new p buf bo dim = .ok w) :
    ∃ s n gs fin, hasSrid buf bo 0 = .ok s ∧
      readU32 bo buf (5 + if s then 4 else 0) = some n ∧
      parseGeometries p buf n (5 + (if s then 4 else 0) + 4) = .ok (gs, fin) ∧
      fin ≤ buf.length ∧
      w = .geometryCollection gs fin dim := by
  cases hsr : hasSrid buf bo 0 with
  | error e => simp [GeometryCollection.try_new, hsr] at h
  | panic => simp [GeometryCollection.try_new, hsr] at h
  | ok s =>
    simp only [GeometryCollection.try_new, hsr] at h
    refine ⟨s, ?_⟩
    cases s with
    | false =>
      simp only [Bool.false_eq_true, if_false, Nat.add_zero] at h ⊢
      cases hr : readU32 bo buf 5 with
      | none => simp only [hr] at h; simp at h
      | some n =>
        simp only [hr] at h
        cases hpg : parseGeometries p buf n (5 + 4) with
        | error e => simp only [hpg] at h; simp at h
        | panic => simp only [hpg] at h; simp at h
        | ok pr =>
          obtain ⟨gs, fin⟩ := pr
          simp only [hpg] at h
          split at h
          · simp at h
          · injection h with h2
            subst h2
            rename_i hgt
            exact ⟨n, gs, fin, by trivial, by trivial, hpg,
              Nat.le_of_not_lt hgt, rfl⟩
    | true =>
      simp only [if_true] at h ⊢
      cases hr : readU32 bo buf (5 + 4) with
      | none => simp only [hr] at h; simp at h
      | some n =>
        simp only [hr] at h
        cases hpg : parseGeometries p buf n (5 + 4 + 4) with
        | error e => simp only [hpg] at h; simp at h
        | panic => simp only [hpg] at h; simp at h
        | ok pr =>
          obtain ⟨gs, fin⟩ := pr
          simp only [hpg] at h
          split at h
          · simp at h
          · injection h with h2
            subst h2
            rename_i hgt
            exact ⟨n, gs, fin, by trivial, by trivial, hpg,
              Nat.le_of_not_lt hgt, rfl⟩

/-! ### Size bounds: a view never claims more bytes than its buffer -/

theorem point_size_le {buf : List Nat} {bo : Endianness} {base : Nat}
    {dim : Dimension} {p : Point}
    (h : Point.try_new buf bo base dim = .ok p) : p.size ≤ buf.length := by
  obtain ⟨s, hsr, hp, hle⟩ := point_try_new_ok h
  rw [hp]
  exact hle

theorem ring_size_le {buf : List Nat} {bo : Endianness} {off : Nat}
    {dim : Dimension} {r : LinearRing}
    (h : LinearRing.try_new buf bo off dim = .ok r) :
    off + r.size ≤ buf.length :=
  (ring_try_new_ok h).2.2

theorem ls_size_le {buf : List Nat} {bo : Endianness} {off : Nat}
    {dim : Dimension} {l : LineString}
    (h : LineString.try_new buf bo off dim = .ok l) :
    off + l.size ≤ buf.length := by
  obtain ⟨s, hsr, hr, hl, hle⟩ := ls_try_new_ok h
  rw [hl]
  rw [hl] at hle
  show off + (1 + 4 + 4 + (if s then 4 else 0) + dim.size * 8 * l.num_points) ≤
    buf.length
  cases s with
  | false =>
    simp only [Bool.false_eq_true, if_false] at hle ⊢
    revert hle
    show (off + 0) + 4 + (4 + 1) + dim.size * 8 * l.num_points ≤ buf.length → _
    omega
  | true =>
    simp only [if_true] at hle ⊢
    revert hle
    show (off + 4) + 4 + (4 + 1) + dim.size * 8 * l.num_points ≤ buf.length → _
    omega

theorem parseRings_size_le {buf : List Nat} {bo : Endianness} {dim : Dimension} :
    ∀ (n off : Nat) (rs : List LinearRing),
      parseRings buf bo dim n off = .ok rs → off ≤ buf.length →
      off + (rs.map LinearRing.size).sum ≤ buf.length := by
  intro n
  induction n with
  | zero =>
    intro off rs h hoff
    rw [parseRings] at h
    injection h with h2
    subst h2
    simpa using hoff
  | succ n ih =>
    intro off rs h hoff
    rw [parseRings] at h
    cases hr : LinearRing.try_new buf bo off dim with
    | error e => simp only [hr] at h; simp at h
    | panic => simp only [hr] at h; simp at h
    | ok r =>
      simp only [hr] at h
      cases hrest : parseRings buf bo dim n (off + r.size) with
      | error e => simp only [hrest] at h; simp at h
      | panic => simp only [hrest] at h; simp at h
      | ok rt =>
        simp only [hrest] at h
        injection h with h2
        subst h2
        have h1 := ring_size_le hr
        have h2 := ih (off + r.size) rt hrest h1
        rw [List.map_cons, List.sum_cons]
        omega

theorem poly_size_le {buf : List Nat} {bo : Endianness} {off : Nat}
    {dim : Dimension} {p : Polygon}
    (h : Polygon.try_new buf bo off dim = .ok p) :
    off + p.size ≤ buf.length := by
  obtain ⟨s, nr, hsr, hr, hpr, hp⟩ := poly_try_new_ok h
  have hcnt := readU32_le hr
  have hsum := parseRings_size_le nr (off + (if s then 4 else 0) + 1 + 4 + 4)
    p.wkb_linear_rings hpr (by cases s <;> simp at hcnt ⊢ <;> omega)
  rw [hp]
  show off + (1 + 4 + 4 + (if s then 4 else 0) +
    (p.wkb_linear_rings.map LinearRing.size).sum) ≤ buf.length
  cases s <;> simp at hsum ⊢ <;> omega

theorem parseLineStrings_size_le {buf : List Nat} {bo : Endianness}
    {dim : Dimension} :
    ∀ (n off : Nat) (lvs : List LineString),
      parseLineStrings buf bo dim n off = .ok lvs → off ≤ buf.length →
      off + (lvs.map LineString.size).sum ≤ buf.length := by
  intro n
  induction n with
  | zero =>
    intro off lvs h hoff
    rw [parseLineStrings] at h
    injection h with h2
    subst h2
    simpa using hoff
  | succ n ih =>
    intro off lvs h hoff
    rw [parseLineStrings] at h
    cases hr : LineString.try_new buf bo off dim with
    | error e => simp only [hr] at h; simp at h
    | panic => simp only [hr] at h; simp at h
    | ok l =>
      simp only [hr] at h
      cases hrest : parseLineStrings buf bo dim n (off + l.size) with
      | error e => simp only [hrest] at h; simp at h
      | panic => simp only [hrest] at h; simp at h
      | ok lt =>
        simp only [hrest] at h
        injection h with h2
        subst h2
        have h1 := ls_size_le hr
        have h2 := ih (off + l.size) lt hrest h1
        rw [List.map_cons, List.sum_cons]
        omega

theorem mls_size_le {buf : List Nat} {bo : Endianness}
    {dim : Dimension} {m : MultiLineString}
    (h : MultiLineString.try_new buf bo dim = .ok m) :
    m.size ≤ buf.length := by
  obtain ⟨s, n, hsr, hr, hps, hm⟩ := mls_try_new_ok h
  have hcnt := readU32_le hr
  have hsum := parseLineStrings_size_le n (1 + 4 + 4 + if s then 4 else 0)
    m.wkb_line_strings hps (by cases s <;> simp at hcnt ⊢ <;> omega)
  rw [hm]
  show 1 + 4 + 4 + (if s then 4 else 0) +
    (m.wkb_line_strings.map LineString.size).sum ≤ buf.length
  cases s <;> simp at hsum ⊢ <;> omega

theorem parsePolygons_size_le {buf : List Nat} {bo : Endianness}
    {dim : Dimension} :
    ∀ (n off : Nat) (pvs : List Polygon),
      parsePolygons buf bo dim n off = .ok pvs → off ≤ buf.length →
      off + (pvs.map Polygon.size).sum ≤ buf.length := by
  intro n
  induction n with
  | zero =>
    intro off pvs h hoff
    rw [parsePolygons] at h
    injection h with h2
    subst h2
    simpa using hoff
  | succ n ih =>
    intro off pvs h hoff
    rw [parsePolygons] at h
    cases hr : Polygon.try_new buf bo off dim with
    | error e => simp only [hr] at h; simp at h
    | panic => simp only [hr] at h; simp at h
    | ok pv =>
      simp only [hr] at h
      cases hrest : parsePolygons buf bo dim n (off + pv.size) with
      | error e => simp only [hrest] at h; simp at h
      | panic => simp only [hrest] at h; simp at h
      | ok pt =>
        simp only [hrest] at h
        injection h with h2
        subst h2
        have h1 := poly_size_le hr
        have h2 := ih (off + pv.size) pt hrest h1
        rw [List.map_cons, List.sum_cons]
        omega

theorem mpoly_size_le {buf : List Nat} {bo : Endianness}
    {dim : Dimension} {m : MultiPolygon}
    (h : MultiPolygon.try_new buf bo dim = .ok m) :
    m.size ≤ buf.length := by
  obtain ⟨s, n, hsr, hr, hps, hm⟩ := mpoly_try_new_ok h
  have hcnt := readU32_le hr
  have hsum := parsePolygons_size_le n (1 + 4 + 4 + if s then 4 else 0)
    m.wkb_polygons hps (by cases s <;> simp at hcnt ⊢ <;> omega)
  rw [hm]
  show 1 + 4 + 4 + (if s then 4 else 0) +
    (m.wkb_polygons.map Polygon.size).sum ≤ buf.length
  cases s <;> simp at hsum ⊢ <;> omega

/-- Every successfully parsed geometry claims at most the bytes of the
buffer it was parsed from. -/
theorem parseWkb_size_le {fuel : Nat} {buf : List Nat} {w : Wkb}
    (h : parseWkb fuel buf = .ok w) : w.size ≤ buf.length := by
  cases fuel with
  | zero => simp [parseWkb] at h
  | succ fuel =>
    rw [parseWkb] at h
    cases hr8 : readU8 buf 0 with
    | none => simp only [hr8] at h; simp at h
    | some b =>
      simp only [hr8] at h
      cases hend : endiannessOfByte b with
      | none => simp only [hend] at h; simp at h
      | some bo =>
        simp only [hend] at h
        cases hfb : WkbType.from_buffer buf with
        | error e => simp only [hfb] at h; simp at h
        | panic => simp only [hfb] at h; simp at h
        | ok t =>
          simp only [hfb] at h
          cases t with
          | point dim =>
            cases hv : Point.try_new buf bo 0 dim with
            | error e => simp only [hv] at h; simp [Outcome.map] at h
            | panic => simp only [hv] at h; simp [Outcome.map] at h
            | ok v =>
              simp only [hv] at h
              simp only [Outcome.map] at h
              injection h with h2
              subst h2
              exact point_size_le hv
          | lineString dim =>
            cases hv : LineString.try_new buf bo 0 dim with
            | error e => simp only [hv] at h; simp [Outcome.map] at h
            | panic => simp only [hv] at h; simp [Outcome.map] at h
            | ok v =>
              simp only [hv] at h
              simp only [Outcome.map] at h
              injection h with h2
              subst h2
              have := ls_size_le hv
              show v.size ≤ buf.length
              omega
          | polygon dim =>
            cases hv : Polygon.try_new buf bo 0 dim with
            | error e => simp only [hv] at h; simp [Outcome.map] at h
            | panic => simp only [hv] at h; simp [Outcome.map] at h
            | ok v =>
              simp only [hv] at h
              simp only [Outcome.map] at h
              injection h with h2
              subst h2
              have := poly_size_le hv
              show v.size ≤ buf.length
              omega
          | multiPoint dim =>
            cases hv : MultiPoint.try_new buf bo dim with
            | error e => simp only [hv] at h; simp [Outcome.map] at h
            | panic => simp only [hv] at h; simp [Outcome.map] at h
            | ok v =>
              simp only [hv] at h
              simp only [Outcome.map] at h
              injection h with h2
              subst h2
              exact (mp_try_new_ok hv).choose_spec.2.2.2
          | multiLineString dim =>
            cases hv : MultiLineString.try_new buf bo dim with
            | error e => simp only [hv] at h; simp [Outcome.map] at h
            | panic => simp only [hv] at h; simp [Outcome.map] at h
            | ok v =>
              simp only [hv] at h
              simp only [Outcome.map] at h
              injection h with h2
              subst h2
              exact mls_size_le hv
          | multiPolygon dim =>
            cases hv : MultiPolygon.try_new buf bo dim with
            | error e => simp only [hv] at h; simp [Outcome.map] at h
            | panic => simp only [hv] at h; simp [Outcome.map] at h
            | ok v =>
              simp only [hv] at h
              simp only [Outcome.map] at h
              injection h with h2
              subst h2
              exact mpoly_size_le hv
          | geometryCollection dim =>
            obtain ⟨s, n, gs, fin, hsr, hr, hpg, hfin, hw⟩ :=
              gc_try_new_ok h
            rw [hw]
            exact hfin

/-! ### Structural properties of ring and child loops -/

/-- Rings laid out back-to-back: each ring starts at the running offset
and the next offset is past its computed end. -/
def RingChain : Nat → List LinearRing → Prop
  | _, [] => True
  | off, r :: rs => r.offset = off ∧ RingChain (off + r.size) rs

theorem parseRings_spec {buf : List Nat} {bo : Endianness} {dim : Dimension} :
    ∀ (n off : Nat) (rs : List LinearRing),
      parseRings buf bo dim n off = .ok rs →
      rs.length = n ∧ RingChain off rs := by
  intro n
  induction n with
  | zero =>
    intro off rs h
    rw [parseRings] at h
    injection h with h2
    subst h2
    exact ⟨rfl, trivial⟩
  | succ n ih =>
    intro off rs h
    rw [parseRings] at h
    cases hr : LinearRing.try_new buf bo off dim with
    | error e => simp only [hr] at h; simp at h
    | panic => simp only [hr] at h; simp at h
    | ok r =>
      simp only [hr] at h
      cases hrest : parseRings buf bo dim n (off + r.size) with
      | error e => simp only [hrest] at h; simp at h
      | panic => simp only [hrest] at h; simp at h
      | ok rt =>
        simp only [hrest] at h
        injection h with h2
        subst h2
        obtain ⟨hlen, hchain⟩ := ih (off + r.size) rt hrest
        have hoff : r.offset = off := by
          obtain ⟨_, hr2, _⟩ := ring_try_new_ok hr
          rw [hr2]
        exact ⟨by simp [hlen], hoff, hchain⟩

theorem parseLineStrings_mem {buf : List Nat} {bo : Endianness}
    {dim : Dimension} :
    ∀ (n off : Nat) (lvs : List LineString),
      parseLineStrings buf bo dim n off = .ok lvs →
      ∀ l ∈ lvs, ∃ o, LineString.try_new buf bo o dim = .ok l := by
  intro n
  induction n with
  | zero =>
    intro off lvs h
    rw [parseLineStrings] at h
    injection h with h2
    subst h2
    simp
  | succ n ih =>
    intro off lvs h
    rw [parseLineStrings] at h
    cases hr : LineString.try_new buf bo off dim with
    | error e => simp only [hr] at h; simp at h
    | panic => simp only [hr] at h; simp at h
    | ok l =>
      simp only [hr] at h
      cases hrest : parseLineStrings buf bo dim n (off + l.size) with
      | error e => simp only [hrest] at h; simp at h
      | panic => simp only [hrest] at h; simp at h
      | ok lt =>
        simp only [hrest] at h
        injection h with h2
        subst h2
        intro x hx
        rcases List.mem_cons.mp hx with hx0 | hxt
        · exact ⟨off, by rw [hx0]; exact hr⟩
        · exact ih (off + l.size) lt hrest x hxt

/-! ### In-bounds coordinate access -/

theorem assemble64_isSome {l : List Nat} (bo : Endianness) (h : 8 ≤ l.length) :
    ∃ v, (match bo with
      | .littleEndian => assemble64LE l
      | .bigEndian => assemble64BE l) = some v := by
  match l with
  | b0 :: b1 :: b2 :: b3 :: b4 :: b5 :: b6 :: b7 :: t =>
    cases bo
    · exact ⟨_, rfl⟩
    · exact ⟨_, rfl⟩
  | [] | [_] | [_, _] | [_, _, _] | [_, _, _, _] | [_, _, _, _, _]
  | [_, _, _, _, _, _] | [_, _, _, _, _, _, _] => simp at h

theorem readF64_isSome {bo : Endianness} {buf : List Nat} {pos : Nat}
    (h : pos + 8 ≤ buf.length) : ∃ v, readF64 bo buf pos = some v := by
  have hlen : 8 ≤ (buf.drop pos).length := by
    rw [List.length_drop]
    omega
  have := assemble64_isSome (l := buf.drop pos) bo hlen
  cases bo <;> simpa [readF64] using this

/-! ### The header decoding the specification describes -/

/-- The ISO magnitude band of a type code, per the spec: base codes are
XY, +1000 is XYZ, +2000 is XYM, +3000 is XYZM. -/
def bandDim (code : Nat) : Dimension :=
  if code / 1000 = 1 then .xyz
  else if code / 1000 = 2 then .xym
  else if code / 1000 = 3 then .xyzm
  else .xy

/-- The dimension of a type code per the spec's words: the EWKB `Z`/`M`
bit flags take precedence over the ISO magnitude bands when set. -/
def specDim (code : Nat) : Dimension :=
  if code.testBit 31 || code.testBit 30 then
    (if code.testBit 31 && code.testBit 30 then .xyzm
     else if code.testBit 31 then .xyz
     else .xym)
  else bandDim code

/-- The type-code decoding the spec describes: the low three bits select
the geometry kind, `1..=7` mapping to Point through GeometryCollection
and anything else a "type code out of range" error; the dimension follows
`specDim`.  This follows the spec's words, for comparison with
`getType`. -/
def getTypeSpec (code : Nat) : Outcome WkbType :=
  match code % 8 with
  | 1 => .ok (.point (specDim code))
  | 2 => .ok (.lineString (specDim code))
  | 3 => .ok (.polygon (specDim code))
  | 4 => .ok (.multiPoint (specDim code))
  | 5 => .ok (.multiLineString (specDim code))
  | 6 => .ok (.multiPolygon (specDim code))
  | 7 => .ok (.geometryCollection (specDim code))
  | _ => .error (.typeOutOfRange code)

theorem getType_eq_getTypeSpec (code : Nat) : getType code = getTypeSpec code := by
  rw [getType, getTypeSpec]
  have hdim : (if code.testBit 31 && code.testBit 30 then Dimension.xyzm
      else if code.testBit 31 && !code.testBit 30 then Dimension.xyz
      else if !code.testBit 31 && code.testBit 30 then Dimension.xym
      else if code / 1000 = 1 then Dimension.xyz
      else if code / 1000 = 2 then Dimension.xym
      else if code / 1000 = 3 then Dimension.xyzm
      else Dimension.xy) = specDim code := by
    rw [specDim, bandDim]
    cases hz : code.testBit 31 <;> cases hm : code.testBit 30 <;> simp
  rw [← hdim]

/-! ## Claim theorems -/

/-- C1: for every supported geometry kind and dimension combination and
for both byte orders, writing a well-formed geometry with
`write_geometry` and parsing the produced bytes with `read_wkb` yields a
geometry equal to the original, equality taken on the materialized owned
geometry representation. -/
theorem claim_round_trip (bo : Endianness) (dim : Dimension) (g : OGeometry)
    (bs : List Nat) (hwf : WF dim g)
    (henc : write_geometry bo dim g = some bs) :
    ∃ w : Wkb, read_wkb bs = .ok w ∧ materializeWkb w = .ok g := by
  obtain ⟨w, hp, _, hm⟩ :=
    write_geometry_rt g bo dim bs hwf henc [] bs.length le_rfl
  rw [List.append_nil] at hp
  exact ⟨w, hp, hm⟩

/-- Witness for C1: the round trip at the spec's concrete scenario, the
little-endian XY point (0.0, 1.0). -/
theorem claim_round_trip_witness :
    ∃ w : Wkb,
      read_wkb [1, 1, 0, 0, 0,
        0, 0, 0, 0, 0, 0, 0, 0,
        0, 0, 0, 0, 0, 0, 240, 63] = .ok w ∧
      materializeWkb w = .ok (.point (some ⟨[0, 4607182418800017408]⟩)) :=
  claim_round_trip .littleEndian .xy (.point (some ⟨[0, 4607182418800017408]⟩))
    _
    (WF.point (fun c hc => by
      simp only [Option.mem_def, Option.some_inj] at hc
      subst hc
      exact ⟨⟨by decide, by decide⟩, by decide⟩))
    rfl

/-- C3 (code bug): a buffer shorter than five bytes whose first byte is a
valid byte-order marker makes `read_wkb` panic rather than return a
decode error: `WkbType::from_buffer` in `common.rs` `unwrap`s the
four-byte type-code read.  The crate's own test
`test_wkb_buffer_too_short_for_header` asserts `is_err` on the 3-byte
input `[0x01, 0x01, 0x00]`.  Only the empty buffer, whose first read is
`?`-propagated in `WkbInner::try_new`, errors cleanly. -/
theorem claim_truncated_header_panics :
    read_wkb [1, 1, 0] = Outcome.panic ∧
    read_wkb [1] = Outcome.panic ∧
    read_wkb [0, 0, 0] = Outcome.panic ∧
    read_wkb [] = Outcome.error .ioError :=
  ⟨rfl, rfl, rfl, rfl⟩

/-- C4: appending arbitrary bytes after a written geometry leaves the
parse successful, the parsed geometry's consumed size equals the written
length, and re-parsing exactly that prefix reproduces the original
geometry. -/
theorem claim_trailing_bytes (bo : Endianness) (dim : Dimension)
    (g : OGeometry) (bs suffix : List Nat) (hwf : WF dim g)
    (henc : write_geometry bo dim g = some bs) :
    ∃ w : Wkb, read_wkb (bs ++ suffix) = .ok w ∧ w.size = bs.length ∧
      ∃ w0 : Wkb, read_wkb ((bs ++ suffix).take w.size) = .ok w0 ∧
        materializeWkb w0 = .ok g := by
  obtain ⟨w, hp, hsz, hm⟩ := write_geometry_rt g bo dim bs hwf henc suffix
    (bs.length + suffix.length) (by omega)
  refine ⟨w, ?_, hsz, ?_⟩
  · rw [read_wkb, List.length_append]
    exact hp
  · rw [hsz, List.take_left]
    obtain ⟨w0, hp0, _, hm0⟩ :=
      write_geometry_rt g bo dim bs hwf henc [] bs.length le_rfl
    rw [List.append_nil] at hp0
    exact ⟨w0, hp0, hm0⟩

/-- Witness for C4: the little-endian XY point (0.0, 1.0) with three
trailing junk bytes. -/
theorem claim_trailing_bytes_witness :
    ∃ w : Wkb,
      read_wkb ([1, 1, 0, 0, 0,
        0, 0, 0, 0, 0, 0, 0, 0,
        0, 0, 0, 0, 0, 0, 240, 63] ++ [7, 7, 7]) = .ok w ∧
      w.size = 21 ∧
      ∃ w0 : Wkb,
        read_wkb (([1, 1, 0, 0, 0,
          0, 0, 0, 0, 0, 0, 0, 0,
          0, 0, 0, 0, 0, 0, 240, 63] ++ [7, 7, 7]).take w.size) = .ok w0 ∧
        materializeWkb w0 = .ok (.point (some ⟨[0, 4607182418800017408]⟩)) :=
  claim_trailing_bytes .littleEndian .xy
    (.point (some ⟨[0, 4607182418800017408]⟩)) _ [7, 7, 7]
    (WF.point (fun c hc => by
      simp only [Option.mem_def, Option.some_inj] at hc
      subst hc
      exact ⟨⟨by decide, by decide⟩, by decide⟩))
    rfl

/-- The wire format the spec claims for MultiLineString children:
headerless LineString bodies, each a bare count plus coordinate data with
no byte-order/type prefix.  This follows the spec's words, for comparison
with `write_multi_line_string`. -/
def write_multi_line_string_headerless (bo : Endianness) (dim : Dimension)
    (lss : List (List OCoord)) : Option (List Nat) :=
  if lss.length < 4294967296 then
    (collectOpt (lss.map (write_ring bo))).map fun bss =>
      Endianness.toByte bo :: u32Bytes bo (WkbType.multiLineString dim).code ++
        u32Bytes bo lss.length ++ bss.flatten
  else none

/-- C2 counterexample: for the multi-line-string with one empty line
string, little-endian XY, the crate writes an 18-byte buffer whose child
region starts with the child's own byte-order marker and LineString type
code, not the 13-byte headerless layout the claim describes; and the
reader rejects the headerless bytes. -/
theorem claim_c2_counterexample :
    write_multi_line_string .littleEndian .xy [[]] =
      some [1, 5, 0, 0, 0, 1, 0, 0, 0, 1, 2, 0, 0, 0, 0, 0, 0, 0] ∧
    write_multi_line_string_headerless .littleEndian .xy [[]] =
      some [1, 5, 0, 0, 0, 1, 0, 0, 0, 0, 0, 0, 0] ∧
    write_multi_line_string .littleEndian .xy [[]] ≠
      write_multi_line_string_headerless .littleEndian .xy [[]] ∧
    read_wkb [1, 5, 0, 0, 0, 1, 0, 0, 0, 0, 0, 0, 0] = .error .ioError :=
  ⟨by decide, by decide, by decide, rfl⟩

theorem collectOpt_mem {α β : Type} (f : α → Option β) :
    ∀ (l : List α) (out : List β),
      collectOpt (l.map f) = some out →
      ∀ y ∈ out, ∃ x ∈ l, f x = some y := by
  intro l
  induction l with
  | nil =>
    intro out h y hy
    rw [List.map_nil] at h
    injection h with h2
    subst h2
    simp at hy
  | cons a t ih =>
    intro out h y hy
    rw [List.map_cons] at h
    obtain ⟨b, bt, hfa, hct, hout⟩ := collectOpt_cons_eq h
    subst hout
    rcases List.mem_cons.mp hy with hy0 | hyt
    · exact ⟨a, by simp, by rw [hfa, hy0]⟩
    · obtain ⟨x, hx, hfx⟩ := ih bt hct y hyt
      exact ⟨x, by simp [hx], hfx⟩

/-- C2 amended: in the wire format written by `write_multi_line_string`
and `write_multi_polygon`, each child following the `u32` count is a
full nested WKB object with its own byte-order marker (equal to the
parent's) and type code — not a headerless body; on the reader side each
child of a parsed MultiLineString is parsed with the parent's byte order
and dimension and its point count is read past the child's own 5-byte
header. -/
theorem claim_multi_children_have_headers :
    (∀ (bo : Endianness) (dim : Dimension) (lss : List (List OCoord))
        (bs : List Nat),
      write_multi_line_string bo dim lss = some bs →
      ∃ cbs, collectOpt (lss.map (write_line_string bo dim)) = some cbs ∧
        bs = Endianness.toByte bo ::
          u32Bytes bo (WkbType.multiLineString dim).code ++
          (u32Bytes bo lss.length ++ cbs.flatten) ∧
        ∀ cb ∈ cbs, readU8 cb 0 = some (Endianness.toByte bo) ∧
          readU32 bo cb 1 = some (WkbType.lineString dim).code) ∧
    (∀ (bo : Endianness) (dim : Dimension) (pss : List (List (List OCoord)))
        (bs : List Nat),
      write_multi_polygon bo dim pss = some bs →
      ∃ cbs, collectOpt (pss.map (write_polygon bo dim)) = some cbs ∧
        bs = Endianness.toByte bo ::
          u32Bytes bo (WkbType.multiPolygon dim).code ++
          (u32Bytes bo pss.length ++ cbs.flatten) ∧
        ∀ cb ∈ cbs, readU8 cb 0 = some (Endianness.toByte bo) ∧
          readU32 bo cb 1 = some (WkbType.polygon dim).code) ∧
    (∀ (buf : List Nat) (bo : Endianness) (dim : Dimension)
        (m : MultiLineString),
      MultiLineString.try_new buf bo dim = .ok m →
      ∀ l ∈ m.wkb_line_strings, l.byte_order = bo ∧ l.dim = dim ∧
        readU32 bo buf (5 + l.offset) = some l.num_points) := by
  refine ⟨?_, ?_, ?_⟩
  · intro bo dim lss bs henc
    obtain ⟨hn, cbs, hcoll, hbs⟩ := write_multi_line_string_eq henc
    refine ⟨cbs, hcoll, hbs, ?_⟩
    intro cb hcb
    obtain ⟨ls, hls, hw⟩ := collectOpt_mem _ lss cbs hcoll cb hcb
    obtain ⟨hn2, hcb2⟩ := write_line_string_eq hw
    constructor
    · rw [hcb2]
      simp [readU8]
    · have hlay : cb.drop 1 = u32Bytes bo (WkbType.lineString dim).code ++
          (u32Bytes bo ls.length ++ (ls.map (write_coord bo)).flatten) := by
        rw [hcb2]
        simp
      exact readU32_layout bo hlay
        (by have := WkbType.code_le (.lineString dim); omega)
  · intro bo dim pss bs henc
    obtain ⟨hn, cbs, hcoll, hbs⟩ := write_multi_polygon_eq henc
    refine ⟨cbs, hcoll, hbs, ?_⟩
    intro cb hcb
    obtain ⟨pg, hpg, hw⟩ := collectOpt_mem _ pss cbs hcoll cb hcb
    obtain ⟨hn2, rbs, hrbs, hcb2⟩ := write_polygon_eq hw
    constructor
    · rw [hcb2]
      simp [readU8]
    · have hlay : cb.drop 1 = u32Bytes bo (WkbType.polygon dim).code ++
          (u32Bytes bo pg.length ++ rbs.flatten) := by
        rw [hcb2]
        simp
      exact readU32_layout bo hlay
        (by have := WkbType.code_le (.polygon dim); omega)
  · intro buf bo dim m hm l hl
    obtain ⟨s, n, hsr, hr, hps, hm2⟩ := mls_try_new_ok hm
    obtain ⟨o, ho⟩ := parseLineStrings_mem _ _ _ hps l hl
    obtain ⟨s2, hsr2, hr2, hl2, hle2⟩ := ls_try_new_ok ho
    refine ⟨by rw [hl2], by rw [hl2], ?_⟩
    have : l.offset = o + (if s2 then 4 else 0) := by rw [hl2]
    rw [this]
    exact hr2

/-- Witness for C2's amended statement, at the counterexample input. -/
theorem claim_multi_children_have_headers_witness :
    ∃ cbs, collectOpt ([[]].map (write_line_string .littleEndian .xy)) =
        some cbs ∧
      [1, 5, 0, 0, 0, 1, 0, 0, 0, 1, 2, 0, 0, 0, 0, 0, 0, 0] =
        Endianness.toByte .littleEndian ::
          u32Bytes .littleEndian (WkbType.multiLineString .xy).code ++
          (u32Bytes .littleEndian ([[]] : List (List OCoord)).length ++
            cbs.flatten) ∧
      ∀ cb ∈ cbs, readU8 cb 0 = some (Endianness.toByte .littleEndian) ∧
        readU32 .littleEndian cb 1 = some (WkbType.lineString .xy).code :=
  claim_multi_children_have_headers.1 .littleEndian .xy [[]]
    [1, 5, 0, 0, 0, 1, 0, 0, 0, 1, 2, 0, 0, 0, 0, 0, 0, 0] (by decide)

/-- C5: header decoding maps byte-order marker 0 to big-endian and 1 to
little-endian with any other marker a decode error, and the type-code
decoder agrees everywhere with the spec's description: kind from the low
three bits (1..7, else "type code out of range"), dimension from the ISO
magnitude bands unless the EWKB Z/M bit flags are set, which take
precedence. -/
theorem claim_header_decoding :
    (∀ code, getType code = getTypeSpec code) ∧
    endiannessOfByte 0 = some .bigEndian ∧
    endiannessOfByte 1 = some .littleEndian ∧
    (∀ b, b ≠ 0 → b ≠ 1 → endiannessOfByte b = none) ∧
    (∀ b rest, b ≠ 0 → b ≠ 1 →
      read_wkb (b :: rest) = .error .invalidByteOrder) ∧
    (∀ code, code % 8 = 0 → getType code = .error (.typeOutOfRange code)) := by
  have hnone : ∀ b, b ≠ 0 → b ≠ 1 → endiannessOfByte b = none := by
    intro b h0 h1
    rw [endiannessOfByte, if_neg h0, if_neg h1]
  refine ⟨getType_eq_getTypeSpec, rfl, rfl, hnone, ?_, ?_⟩
  · intro b rest h0 h1
    rw [read_wkb, parseWkb]
    have hr8 : readU8 (b :: rest) 0 = some b := rfl
    rw [hr8]
    show (match endiannessOfByte b with
      | none => Outcome.error .invalidByteOrder
      | some bo => _) = _
    rw [hnone b h0 h1]
  · intro code h0
    rw [getType_eq_getTypeSpec, getTypeSpec, h0]

/-- Witness for C5 at concrete inputs: an EWKB Z-flagged point code, a
banded XYM line-string code, marker 2 rejection, and the out-of-range
code 8. -/
theorem claim_header_decoding_witness :
    getType 2147483649 = getTypeSpec 2147483649 ∧
    getType 2002 = getTypeSpec 2002 ∧
    endiannessOfByte 2 = none ∧
    read_wkb (2 :: [1, 0, 0, 0]) = .error .invalidByteOrder ∧
    getType 8 = .error (.typeOutOfRange 8) :=
  ⟨claim_header_decoding.1 2147483649, claim_header_decoding.1 2002,
    claim_header_decoding.2.2.2.1 2 (by decide) (by decide),
    claim_header_decoding.2.2.2.2.1 2 [1, 0, 0, 0] (by decide) (by decide),
    claim_header_decoding.2.2.2.2.2 8 (by decide)⟩

/-- C6: with the declared u32 point count readable, `LinearRing::try_new`
and `LineString::try_new` succeed exactly when the computed expected end
offset (count × dimension-size × 8 past the coordinate data start) fits
the buffer (the u32 count always fits the 64-bit platform size type), and
on overflow they return the error carrying the expected end offset and
the actual buffer length. -/
theorem claim_count_end_bounds :
    (∀ (buf : List Nat) (bo : Endianness) (off : Nat) (dim : Dimension)
        (n : Nat),
      readU32 bo buf off = some n →
      ((∃ r : LinearRing, LinearRing.try_new buf bo off dim = .ok r) ↔
        off + (4 + dim.size * 8 * n) ≤ buf.length) ∧
      (buf.length < off + (4 + dim.size * 8 * n) →
        LinearRing.try_new buf bo off dim =
          .error (.invalidBufferLength (off + (4 + dim.size * 8 * n))
            buf.length))) ∧
    (∀ (buf : List Nat) (bo : Endianness) (off : Nat) (dim : Dimension)
        (s : Bool) (n : Nat),
      hasSrid buf bo off = .ok s →
      readU32 bo buf (5 + (off + if s then 4 else 0)) = some n →
      ((∃ l : LineString, LineString.try_new buf bo off dim = .ok l) ↔
        off + (if s then 4 else 0) + 9 + dim.size * 8 * n ≤ buf.length) ∧
      (buf.length < off + (if s then 4 else 0) + 9 + dim.size * 8 * n →
        LineString.try_new buf bo off dim =
          .error (.invalidBufferLength
            (off + (if s then 4 else 0) + 9 + dim.size * 8 * n)
            buf.length))) := by
  constructor
  · intro buf bo off dim n hr
    constructor
    · constructor
      · rintro ⟨r, hok⟩
        obtain ⟨hr2, hst, hle⟩ := ring_try_new_ok hok
        rw [hr] at hr2
        injection hr2 with hnp
        have hd : r.dim = dim := by rw [hst]
        have hsz : r.size = 4 + r.dim.size * 8 * r.num_points := rfl
        rw [hd, ← hnp] at hsz
        omega
      · intro hle
        refine ⟨⟨buf, bo, off, n, dim⟩, ?_⟩
        simp only [LinearRing.try_new, hr]
        show (if off + (4 + dim.size * 8 * n) > buf.length then _ else _) = _
        rw [if_neg (by omega)]
    · intro hlt
      simp only [LinearRing.try_new, hr]
      show (if off + (4 + dim.size * 8 * n) > buf.length then _ else _) = _
      rw [if_pos (by omega)]
      rfl
  · intro buf bo off dim s n hsr hrd
    cases s with
    | false =>
      simp only [Bool.false_eq_true, if_false, Nat.add_zero] at hrd ⊢
      constructor
      · constructor
        · rintro ⟨l, hok⟩
          obtain ⟨s2, hsr2, hr2, hst, hle⟩ := ls_try_new_ok hok
          rw [hsr] at hsr2
          injection hsr2 with hs2
          subst hs2
          simp only [Bool.false_eq_true, if_false, Nat.add_zero] at hr2 hst
          rw [hrd] at hr2
          injection hr2 with hnp
          have hco : l.coord_offset l.num_points =
              l.offset + 1 + 4 + 4 + l.dim.size * 8 * l.num_points := rfl
          have hoff : l.offset = off := by rw [hst]
          have hdim : l.dim = dim := by rw [hst]
          rw [hco, hoff, hdim, ← hnp] at hle
          omega
        · intro hle
          refine ⟨⟨buf, bo, n, off, dim, false⟩, ?_⟩
          simp only [LineString.try_new, hsr, Bool.false_eq_true, if_false,
            Nat.add_zero, hrd]
          show (if off + 1 + 4 + 4 + dim.size * 8 * n > buf.length
            then _ else _) = _
          rw [if_neg (by omega)]
      · intro hlt
        simp only [LineString.try_new, hsr, Bool.false_eq_true, if_false,
          Nat.add_zero, hrd]
        show (if off + 1 + 4 + 4 + dim.size * 8 * n > buf.length
          then _ else _) = _
        rw [if_pos (by omega)]
        show Outcome.error (.invalidBufferLength
          (off + 1 + 4 + 4 + dim.size * 8 * n) buf.length) = _
        rw [show off + 1 + 4 + 4 + dim.size * 8 * n =
          off + 9 + dim.size * 8 * n by omega]
    | true =>
      simp only [if_true] at hrd ⊢
      constructor
      · constructor
        · rintro ⟨l, hok⟩
          obtain ⟨s2, hsr2, hr2, hst, hle⟩ := ls_try_new_ok hok
          rw [hsr] at hsr2
          injection hsr2 with hs2
          subst hs2
          simp only [if_true] at hr2 hst
          rw [hrd] at hr2
          injection hr2 with hnp
          have hco : l.coord_offset l.num_points =
              l.offset + 1 + 4 + 4 + l.dim.size * 8 * l.num_points := rfl
          have hoff : l.offset = off + 4 := by rw [hst]
          have hdim : l.dim = dim := by rw [hst]
          rw [hco, hoff, hdim, ← hnp] at hle
          omega
        · intro hle
          refine ⟨⟨buf, bo, n, off + 4, dim, true⟩, ?_⟩
          simp only [LineString.try_new, hsr, if_true, hrd]
          show (if off + 4 + 1 + 4 + 4 + dim.size * 8 * n > buf.length
            then _ else _) = _
          rw [if_neg (by omega)]
      · intro hlt
        simp only [LineString.try_new, hsr, if_true, hrd]
        show (if off + 4 + 1 + 4 + 4 + dim.size * 8 * n > buf.length
          then _ else _) = _
        rw [if_pos (by omega)]
        show Outcome.error (.invalidBufferLength
          (off + 4 + 1 + 4 + 4 + dim.size * 8 * n) buf.length) = _
        rw [show off + 4 + 1 + 4 + 4 + dim.size * 8 * n =
          off + 4 + 9 + dim.size * 8 * n by omega]

/-- Witness for C6: the crate's own truncation test, a little-endian XY
LineString declaring 10 points with one point's data (25 bytes, expected
end 169), and the same count field read as a bare LinearRing. -/
theorem claim_count_end_bounds_witness :
    (¬ (∃ r : LinearRing, LinearRing.try_new
        [10, 0, 0, 0, 1, 2, 3] .littleEndian 0 .xy = .ok r)) ∧
    LineString.try_new
      ([1, 2, 0, 0, 0] ++ [10, 0, 0, 0] ++
        [0, 0, 0, 0, 0, 0, 240, 63, 0, 0, 0, 0, 0, 0, 0, 64])
      .littleEndian 0 .xy =
      .error (.invalidBufferLength 169 25) := by
  constructor
  · intro hex
    have h1 := ((claim_count_end_bounds.1 [10, 0, 0, 0, 1, 2, 3]
      .littleEndian 0 .xy 10 (by decide)).1).mp hex
    revert h1
    decide
  · have h2 := (claim_count_end_bounds.2
      ([1, 2, 0, 0, 0] ++ [10, 0, 0, 0] ++
        [0, 0, 0, 0, 0, 0, 240, 63, 0, 0, 0, 0, 0, 0, 0, 64])
      .littleEndian 0 .xy false 10 (by decide) (by decide)).2 (by decide)
    simpa using h2

/-- C7: a successfully parsed point is empty exactly when every decoded
ordinate is NaN, its `coord()` is `None` exactly when it is empty, and
`write_point` encodes a coordinate-less point as `dim.size` NaN
ordinates. -/
theorem claim_empty_point :
    (∀ (buf : List Nat) (bo : Endianness) (base : Nat) (dim : Dimension)
        (p : Point),
      Point.try_new buf bo base dim = .ok p →
      ((p.is_empty = true ↔ ∀ k, k < dim.size → ∀ b,
          readF64 bo buf (p.coord.offset + 8 * k) = some b →
          isNanBits b = true) ∧
        (p.coordOpt = none ↔ p.is_empty = true))) ∧
    (∀ (bo : Endianness) (dim : Dimension),
      (write_point bo dim none).length = 5 + dim.size * 8 ∧
      ∀ k, k < dim.size →
        readF64 bo (write_point bo dim none) (5 + 8 * k) = some nanBits ∧
        isNanBits nanBits = true) := by
  constructor
  · intro buf bo base dim p hok
    obtain ⟨s, hsr, hp, hle⟩ := point_try_new_ok hok
    constructor
    · rw [hp]
      show (((List.range dim.size).all fun k =>
          match Coord.get_nth_unchecked
            ⟨buf, bo, base + 5 + (if s then 4 else 0), dim⟩ k with
          | .ok bits => isNanBits bits
          | _ => false) = true) ↔
        ∀ k, k < dim.size → ∀ b,
          readF64 bo buf (base + 5 + (if s then 4 else 0) + 8 * k) = some b →
          isNanBits b = true
      constructor
      · intro hall k hk b hread
        have hfk : (match Coord.get_nth_unchecked
            ⟨buf, bo, base + 5 + (if s then 4 else 0), dim⟩ k with
          | .ok bits => isNanBits bits
          | _ => false) = true :=
          List.all_eq_true.mp hall k (List.mem_range.mpr hk)
        have hg : Coord.get_nth_unchecked
            ⟨buf, bo, base + 5 + (if s then 4 else 0), dim⟩ k = .ok b := by
          show (match readF64 bo buf
            (base + 5 + (if s then 4 else 0) + 8 * k) with
            | some bits => Outcome.ok bits
            | none => Outcome.panic) = _
          rw [hread]
        rw [hg] at hfk
        exact hfk
      · intro hnan
        rw [List.all_eq_true]
        intro k hkmem
        have hk := List.mem_range.mp hkmem
        have hbound :
            base + 5 + (if s then 4 else 0) + 8 * k + 8 ≤ buf.length := by
          omega
        obtain ⟨v, hv⟩ := readF64_isSome hbound
        have hnv := hnan k hk v hv
        have hg : Coord.get_nth_unchecked
            ⟨buf, bo, base + 5 + (if s then 4 else 0), dim⟩ k = .ok v := by
          show (match readF64 bo buf
            (base + 5 + (if s then 4 else 0) + 8 * k) with
            | some bits => Outcome.ok bits
            | none => Outcome.panic) = _
          rw [hv]
        show (match Coord.get_nth_unchecked
          ⟨buf, bo, base + 5 + (if s then 4 else 0), dim⟩ k with
          | .ok bits => isNanBits bits
          | _ => false) = true
        rw [hg]
        exact hnv
    · cases hpe : p.is_empty <;> simp [Point.coordOpt, hpe]
  · intro bo dim
    have hco : OkPointCoord dim none := fun c hc => absurd hc (by simp)
    refine ⟨write_point_length bo dim none hco, ?_⟩
    intro k hk
    refine ⟨?_, by decide⟩
    have h0 : (write_point bo dim none).drop 0 =
        (Endianness.toByte bo :: u32Bytes bo (WkbType.point dim).code) ++
          (((pointOrds dim none).map (f64Bytes bo)).flatten ++ []) := by
      rw [List.drop_zero, write_point_body]
      simp
    have hbody : (write_point bo dim none).drop 5 =
        ((pointOrds dim none).map (f64Bytes bo)).flatten ++ [] := by
      have := drop_shift h0 5 (by simp [u32Bytes_length])
      simpa using this
    have hk2 : k < (pointOrds dim none).length := by
      rw [pointOrds_length hco]
      exact hk
    have : readF64 bo (write_point bo dim none) (5 + 8 * k) =
        some ((pointOrds dim none).get ⟨k, hk2⟩) :=
      readF64_at_index (pointOrds dim none) [] 5 k hk2 hbody (pointOrds_lt hco)
    rw [this]
    have hgr : (pointOrds dim none).get ⟨k, hk2⟩ = nanBits := by
      simp [pointOrds]
    rw [hgr]

/-- Witness for C7 at the little-endian XY empty point (all-NaN
ordinates) and the write side at dimension XYZ. -/
theorem claim_empty_point_witness :
    (∀ p : Point,
      Point.try_new
        [1, 1, 0, 0, 0,
          0, 0, 0, 0, 0, 0, 248, 127,
          0, 0, 0, 0, 0, 0, 248, 127] .littleEndian 0 .xy = .ok p →
      (p.is_empty = true ↔ ∀ k, k < Dimension.size .xy → ∀ b,
        readF64 .littleEndian
          [1, 1, 0, 0, 0,
            0, 0, 0, 0, 0, 0, 248, 127,
            0, 0, 0, 0, 0, 0, 248, 127] (p.coord.offset + 8 * k) = some b →
        isNanBits b = true) ∧
      (p.coordOpt = none ↔ p.is_empty = true)) ∧
    (write_point .littleEndian .xyz none).length = 5 + Dimension.size .xyz * 8 ∧
    ∀ k, k < Dimension.size .xyz →
      readF64 .littleEndian (write_point .littleEndian .xyz none) (5 + 8 * k) =
        some nanBits ∧ isNanBits nanBits = true :=
  ⟨fun p hp => claim_empty_point.1 _ .littleEndian 0 .xy p hp,
    claim_empty_point.2 .littleEndian .xyz⟩

/-- C8: a polygon whose declared ring count is zero parses successfully
with no exterior and zero interiors; with `n ≥ 1` rings the first ring is
the exterior, there are `n - 1` interiors, and every ring starts
immediately after the previous ring's computed end. -/
theorem claim_polygon_rings :
    (∀ (buf : List Nat) (bo : Endianness) (off : Nat) (dim : Dimension)
        (s : Bool),
      hasSrid buf bo off = .ok s →
      readU32 bo buf (5 + (off + if s then 4 else 0)) = some 0 →
      Polygon.try_new buf bo off dim = .ok ⟨[], dim, s⟩ ∧
      Polygon.exterior ⟨[], dim, s⟩ = none ∧
      Polygon.num_interiors ⟨[], dim, s⟩ = 0) ∧
    (∀ (buf : List Nat) (bo : Endianness) (off : Nat) (dim : Dimension)
        (p : Polygon),
      Polygon.try_new buf bo off dim = .ok p →
      ∃ s nr, hasSrid buf bo off = .ok s ∧
        readU32 bo buf (5 + (off + if s then 4 else 0)) = some nr ∧
        p.wkb_linear_rings.length = nr ∧
        RingChain (off + (if s then 4 else 0) + 1 + 4 + 4)
          p.wkb_linear_rings ∧
        (nr = 0 → p.exterior = none ∧ p.num_interiors = 0) ∧
        (1 ≤ nr → ∃ r0 rt, p.wkb_linear_rings = r0 :: rt ∧
          p.exterior = some r0 ∧ p.num_interiors = nr - 1)) := by
  constructor
  · intro buf bo off dim s hsr hrd
    refine ⟨?_, rfl, rfl⟩
    cases s with
    | false =>
      simp only [Bool.false_eq_true, if_false, Nat.add_zero] at hrd
      simp only [Polygon.try_new, hsr, Bool.false_eq_true, if_false,
        Nat.add_zero, hrd, parseRings]
      rfl
    | true =>
      simp only [if_true] at hrd
      simp only [Polygon.try_new, hsr, if_true, hrd, parseRings]
      rfl
  · intro buf bo off dim p hok
    obtain ⟨s, nr, hsr, hrd, hpr, hp⟩ := poly_try_new_ok hok
    obtain ⟨hlen, hchain⟩ := parseRings_spec nr _ p.wkb_linear_rings hpr
    refine ⟨s, nr, hsr, hrd, hlen, hchain, ?_, ?_⟩
    · intro h0
      cases hrl : p.wkb_linear_rings with
      | nil => exact ⟨by rw [Polygon.exterior, hrl]; rfl,
          by rw [Polygon.num_interiors, hrl]; rfl⟩
      | cons r0 rt =>
        rw [hrl] at hlen
        simp at hlen
        omega
    · intro h1
      cases hrl : p.wkb_linear_rings with
      | nil =>
        rw [hrl] at hlen
        simp at hlen
        omega
      | cons r0 rt =>
        refine ⟨r0, rt, rfl, ?_, ?_⟩
        · rw [Polygon.exterior, hrl]
          rfl
        · rw [Polygon.num_interiors, hrl]
          rw [hrl] at hlen
          simp at hlen ⊢
          omega

/-- Witness for C8: a little-endian XY polygon with zero rings, and one
with a single closed square ring. -/
theorem claim_polygon_rings_witness :
    Polygon.try_new [1, 3, 0, 0, 0, 0, 0, 0, 0] .littleEndian 0 .xy =
      .ok ⟨[], .xy, false⟩ ∧
    Polygon.exterior ⟨[], .xy, false⟩ = none ∧
    Polygon.num_interiors ⟨[], .xy, false⟩ = 0 :=
  (claim_polygon_rings.1 [1, 3, 0, 0, 0, 0, 0, 0, 0] .littleEndian 0 .xy
    false (by decide) (by decide))

/-- C9: every successfully constructed view's declared byte length stays
within the buffer it was built from (for Point, LinearRing, LineString,
MultiPoint, the composite views, and any top-level parse), and the
constructors that perform a length check return `invalidBufferLength`
whenever the computed end exceeds the buffer. -/
theorem claim_view_size_bounds :
    (∀ (buf : List Nat) (bo : Endianness) (base : Nat) (dim : Dimension)
        (p : Point), Point.try_new buf bo base dim = .ok p →
      p.size ≤ buf.length) ∧
    (∀ (buf : List Nat) (bo : Endianness) (base : Nat) (dim : Dimension)
        (s : Bool), hasSrid buf bo base = .ok s →
      buf.length < base + 5 + (if s then 4 else 0) + dim.size * 8 →
      Point.try_new buf bo base dim =
        .error (.invalidBufferLength
          (base + 5 + (if s then 4 else 0) + dim.size * 8) buf.length)) ∧
    (∀ (buf : List Nat) (bo : Endianness) (off : Nat) (dim : Dimension)
        (r : LinearRing), LinearRing.try_new buf bo off dim = .ok r →
      off + r.size ≤ buf.length) ∧
    (∀ (buf : List Nat) (bo : Endianness) (off : Nat) (dim : Dimension)
        (np : Nat), readU32 bo buf off = some np →
      buf.length < off + (4 + dim.size * 8 * np) →
      LinearRing.try_new buf bo off dim =
        .error (.invalidBufferLength (off + (4 + dim.size * 8 * np))
          buf.length)) ∧
    (∀ (buf : List Nat) (bo : Endianness) (off : Nat) (dim : Dimension)
        (l : LineString), LineString.try_new buf bo off dim = .ok l →
      off + l.size ≤ buf.length) ∧
    (∀ (buf : List Nat) (bo : Endianness) (dim : Dimension)
        (m : MultiPoint), MultiPoint.try_new buf bo dim = .ok m →
      m.size ≤ buf.length) ∧
    (∀ (buf : List Nat) (bo : Endianness) (dim : Dimension) (s : Bool)
        (np : Nat), hasSrid buf bo 0 = .ok s →
      readU32 bo buf (5 + if s then 4 else 0) = some np →
      buf.length <
        (1 + 4 + 4 + (if s then 4 else 0)) + (1 + 4 + dim.size * 8) * np →
      MultiPoint.try_new buf bo dim =
        .error (.invalidBufferLength
          ((1 + 4 + 4 + (if s then 4 else 0)) + (1 + 4 + dim.size * 8) * np)
          buf.length)) ∧
    (∀ (buf : List Nat) (bo : Endianness) (off : Nat) (dim : Dimension)
        (p : Polygon), Polygon.try_new buf bo off dim = .ok p →
      off + p.size ≤ buf.length) ∧
    (∀ (buf : List Nat) (bo : Endianness) (dim : Dimension)
        (m : MultiLineString), MultiLineString.try_new buf bo dim = .ok m →
      m.size ≤ buf.length) ∧
    (∀ (buf : List Nat) (bo : Endianness) (dim : Dimension)
        (m : MultiPolygon), MultiPolygon.try_new buf bo dim = .ok m →
      m.size ≤ buf.length) ∧
    (∀ (buf : List Nat) (w : Wkb), read_wkb buf = .ok w →
      w.size ≤ buf.length) := by
  refine ⟨?_, ?_, ?_, ?_, ?_, ?_, ?_, ?_, ?_, ?_, ?_⟩
  · intro buf bo base dim p h
    exact point_size_le h
  · intro buf bo base dim s hsr hlt
    simp only [Point.try_new, hsr]
    rw [if_pos hlt]
  · intro buf bo off dim r h
    exact ring_size_le h
  · intro buf bo off dim np hr hgt
    simp only [LinearRing.try_new, hr, LinearRing.size]
    rw [if_pos hgt]
  · intro buf bo off dim l h
    exact ls_size_le h
  · intro buf bo dim m h
    obtain ⟨s, hsr, hr, hm, hle⟩ := mp_try_new_ok h
    exact hle
  · intro buf bo dim s np hsr hr hlt
    cases s with
    | false =>
      simp only [Bool.false_eq_true, if_false, Nat.add_zero] at hr hlt ⊢
      simp only [MultiPoint.try_new, hsr, Bool.false_eq_true, if_false,
        Nat.add_zero, hr, MultiPoint.point_offset]
      rw [if_pos hlt]
    | true =>
      simp only [if_true] at hr hlt ⊢
      simp only [MultiPoint.try_new, hsr, if_true, hr,
        MultiPoint.point_offset]
      rw [if_pos hlt]
  · intro buf bo off dim p h
    exact poly_size_le h
  · intro buf bo dim m h
    exact mls_size_le h
  · intro buf bo dim m h
    exact mpoly_size_le h
  · intro buf w h
    exact parseWkb_size_le h

/-- Witness for C9: the size bound at a concrete non-empty point view,
and the error branch at a four-byte buffer declaring a ten-point ring. -/
theorem claim_view_size_bounds_witness :
    Point.size
      ⟨⟨[1, 1, 0, 0, 0,
          0, 0, 0, 0, 0, 0, 240, 63,
          0, 0, 0, 0, 0, 0, 0, 64], .littleEndian, 5, .xy⟩, 21, .xy,
        false⟩ ≤
      List.length [1, 1, 0, 0, 0,
        0, 0, 0, 0, 0, 0, 240, 63,
        0, 0, 0, 0, 0, 0, 0, 64] ∧
    LinearRing.try_new [10, 0, 0, 0] .littleEndian 0 .xy =
      .error (.invalidBufferLength
        (0 + (4 + Dimension.size .xy * 8 * 10))
        (List.length [10, 0, 0, 0])) := by
  refine ⟨?_, ?_⟩
  · exact claim_view_size_bounds.1
      [1, 1, 0, 0, 0,
        0, 0, 0, 0, 0, 0, 240, 63,
        0, 0, 0, 0, 0, 0, 0, 64] .littleEndian 0 .xy
      ⟨⟨[1, 1, 0, 0, 0,
          0, 0, 0, 0, 0, 0, 240, 63,
          0, 0, 0, 0, 0, 0, 0, 64], .littleEndian, 5, .xy⟩, 21, .xy,
        false⟩ (by rfl)
  · exact claim_view_size_bounds.2.2.2.1 [10, 0, 0, 0] .littleEndian 0 .xy 10
      (by rfl) (by decide)

/-- C10: for a successfully constructed LineString or LinearRing view and
any in-range coordinate index, the whole coordinate lies inside the
original buffer, and `get_nth_unchecked` (for every in-range ordinate
index), `x` and `y` on `coord_unchecked i` all return `ok` — never
panic. -/
theorem claim_coord_access :
    (∀ (buf : List Nat) (bo : Endianness) (off : Nat) (dim : Dimension)
        (l : LineString) (i : Nat),
      LineString.try_new buf bo off dim = .ok l → i < l.num_points →
      l.coord_offset i + dim.size * 8 ≤ buf.length ∧
      (∀ k, k < dim.size →
        ∃ v, (l.coord_unchecked i).get_nth_unchecked k = .ok v) ∧
      (∃ v, (l.coord_unchecked i).x = .ok v) ∧
      (∃ v, (l.coord_unchecked i).y = .ok v)) ∧
    (∀ (buf : List Nat) (bo : Endianness) (off : Nat) (dim : Dimension)
        (r : LinearRing) (i : Nat),
      LinearRing.try_new buf bo off dim = .ok r → i < r.num_points →
      r.coord_offset i + dim.size * 8 ≤ buf.length ∧
      (∀ k, k < dim.size →
        ∃ v, (r.coord_unchecked i).get_nth_unchecked k = .ok v) ∧
      (∃ v, (r.coord_unchecked i).x = .ok v) ∧
      (∃ v, (r.coord_unchecked i).y = .ok v)) := by
  have hds : ∀ dim : Dimension, 2 ≤ dim.size := by
    intro dim; cases dim <;> decide
  constructor
  · intro buf bo off dim l i hok hi
    obtain ⟨s, hsr, hr, hl, hle⟩ := ls_try_new_ok hok
    have hbuf : l.buf = buf := by rw [hl]
    have hbo : l.byte_order = bo := by rw [hl]
    have hdim : l.dim = dim := by rw [hl]
    have hco : ∀ j, l.coord_offset j =
        l.offset + 1 + 4 + 4 + dim.size * 8 * j := by
      intro j
      rw [LineString.coord_offset, hdim]
    have hstep : l.coord_offset i + dim.size * 8 ≤
        l.coord_offset l.num_points := by
      rw [hco, hco]
      have h2 : dim.size * 8 * (i + 1) ≤ dim.size * 8 * l.num_points :=
        Nat.mul_le_mul_left _ hi
      rw [Nat.mul_succ] at h2
      omega
    have h1 : l.coord_offset i + dim.size * 8 ≤ buf.length :=
      le_trans hstep hle
    refine ⟨h1, ?_, ?_, ?_⟩
    · intro k hk
      have hb : l.coord_offset i + 8 * k + 8 ≤ buf.length := by
        have h8 : 8 * (k + 1) ≤ 8 * dim.size := Nat.mul_le_mul_left _ hk
        omega
      obtain ⟨v, hv⟩ := readF64_isSome hb
      refine ⟨v, ?_⟩
      show (match readF64 l.byte_order l.buf (l.coord_offset i + 8 * k) with
        | some bits => Outcome.ok bits
        | none => Outcome.panic) = _
      rw [hbuf, hbo, hv]
    · have hb : l.coord_offset i + 8 ≤ buf.length := by
        have := hds dim
        omega
      obtain ⟨v, hv⟩ := readF64_isSome hb
      refine ⟨v, ?_⟩
      show (match readF64 l.byte_order l.buf (l.coord_offset i) with
        | some bits => Outcome.ok bits
        | none => Outcome.panic) = _
      rw [hbuf, hbo]
      rw [show readF64 bo buf (l.coord_offset i) = some v from hv]
    · have hb : l.coord_offset i + 8 + 8 ≤ buf.length := by
        have := hds dim
        omega
      obtain ⟨v, hv⟩ := readF64_isSome hb
      refine ⟨v, ?_⟩
      show (match readF64 l.byte_order l.buf (l.coord_offset i + 8) with
        | some bits => Outcome.ok bits
        | none => Outcome.panic) = _
      rw [hbuf, hbo, hv]
  · intro buf bo off dim r i hok hi
    obtain ⟨hr, hrs, hle⟩ := ring_try_new_ok hok
    have hbuf : r.buf = buf := by rw [hrs]
    have hbo : r.byte_order = bo := by rw [hrs]
    have hdim : r.dim = dim := by rw [hrs]
    have hoff : r.offset = off := by rw [hrs]
    have hco : ∀ j, r.coord_offset j =
        off + 4 + dim.size * 8 * j := by
      intro j
      rw [LinearRing.coord_offset, hdim, hoff]
    have hsz : r.size = 4 + dim.size * 8 * r.num_points := by
      rw [LinearRing.size, hdim]
    have hstep : r.coord_offset i + dim.size * 8 ≤ off + r.size := by
      rw [hco, hsz]
      have h2 : dim.size * 8 * (i + 1) ≤ dim.size * 8 * r.num_points :=
        Nat.mul_le_mul_left _ hi
      rw [Nat.mul_succ] at h2
      omega
    have h1 : r.coord_offset i + dim.size * 8 ≤ buf.length :=
      le_trans hstep hle
    refine ⟨h1, ?_, ?_, ?_⟩
    · intro k hk
      have hb : r.coord_offset i + 8 * k + 8 ≤ buf.length := by
        have h8 : 8 * (k + 1) ≤ 8 * dim.size := Nat.mul_le_mul_left _ hk
        omega
      obtain ⟨v, hv⟩ := readF64_isSome hb
      refine ⟨v, ?_⟩
      show (match readF64 r.byte_order r.buf (r.coord_offset i + 8 * k) with
        | some bits => Outcome.ok bits
        | none => Outcome.panic) = _
      rw [hbuf, hbo, hv]
    · have hb : r.coord_offset i + 8 ≤ buf.length := by
        have := hds dim
        omega
      obtain ⟨v, hv⟩ := readF64_isSome hb
      refine ⟨v, ?_⟩
      show (match readF64 r.byte_order r.buf (r.coord_offset i) with
        | some bits => Outcome.ok bits
        | none => Outcome.panic) = _
      rw [hbuf, hbo]
      rw [show readF64 bo buf (r.coord_offset i) = some v from hv]
    · have hb : r.coord_offset i + 8 + 8 ≤ buf.length := by
        have := hds dim
        omega
      obtain ⟨v, hv⟩ := readF64_isSome hb
      refine ⟨v, ?_⟩
      show (match readF64 r.byte_order r.buf (r.coord_offset i + 8) with
        | some bits => Outcome.ok bits
        | none => Outcome.panic) = _
      rw [hbuf, hbo, hv]

/-- Witness for C10 at the second coordinate of a concrete two-point
little-endian XY line string. -/
theorem claim_coord_access_witness :
    LineString.coord_offset
        ⟨[1, 2, 0, 0, 0, 2, 0, 0, 0,
          0, 0, 0, 0, 0, 0, 240, 63, 0, 0, 0, 0, 0, 0, 0, 64,
          0, 0, 0, 0, 0, 0, 8, 64, 0, 0, 0, 0, 0, 0, 16, 64],
          .littleEndian, 2, 0, .xy, false⟩ 1 +
      Dimension.size .xy * 8 ≤
      List.length [1, 2, 0, 0, 0, 2, 0, 0, 0,
        0, 0, 0, 0, 0, 0, 240, 63, 0, 0, 0, 0, 0, 0, 0, 64,
        0, 0, 0, 0, 0, 0, 8, 64, 0, 0, 0, 0, 0, 0, 16, 64] ∧
    ∃ v, Coord.x (LineString.coord_unchecked
        ⟨[1, 2, 0, 0, 0, 2, 0, 0, 0,
          0, 0, 0, 0, 0, 0, 240, 63, 0, 0, 0, 0, 0, 0, 0, 64,
          0, 0, 0, 0, 0, 0, 8, 64, 0, 0, 0, 0, 0, 0, 16, 64],
          .littleEndian, 2, 0, .xy, false⟩ 1) = .ok v := by
  have h := claim_coord_access.1
    [1, 2, 0, 0, 0, 2, 0, 0, 0,
      0, 0, 0, 0, 0, 0, 240, 63, 0, 0, 0, 0, 0, 0, 0, 64,
      0, 0, 0, 0, 0, 0, 8, 64, 0, 0, 0, 0, 0, 0, 16, 64]
    .littleEndian 0 .xy
    ⟨[1, 2, 0, 0, 0, 2, 0, 0, 0,
      0, 0, 0, 0, 0, 0, 240, 63, 0, 0, 0, 0, 0, 0, 0, 64,
      0, 0, 0, 0, 0, 0, 8, 64, 0, 0, 0, 0, 0, 0, 16, 64],
      .littleEndian, 2, 0, .xy, false⟩ 1 (by rfl) (by decide)
  exact ⟨h.1, h.2.2.1⟩

end GeoWkb
